import Mathlib

/-!
# Verification of the biblical-ai ingestion / normalization / alignment core

Shallow embedding of `src/preprocessing1.py` (class `BiblicalTextPreprocessor`):
text is modelled as `List Char`, Python dicts as insertion-ordered association
lists, fallible code as `Except String`.  Each regex substitution of the source
is implemented as an executable scan with the same leftmost, non-overlapping
semantics as Python's `re.sub` / `re.finditer` on the character classes the
patterns mention (the development reasons about ASCII texts plus the concrete
marker glyphs appearing in the patterns).
-/

set_option autoImplicit false

namespace BiblicalAI

/-! ## Character classes

`\s`, `\w`, `[A-Za-z]`, `\d` restricted to ASCII (Python's `re` also accepts
further Unicode members of these classes; the texts reasoned about here are
ASCII). -/

def isPySpace (c : Char) : Bool :=
  c = ' ' || c = '\t' || c = '\n' || c = '\r' || c = '\x0b' || c = '\x0c'

/-- `[A-Za-z]` (stated over code points for arithmetic convenience:
97-122 is `a`-`z`, 65-90 is `A`-`Z`). -/
def isAsciiLetter (c : Char) : Bool :=
  (97 ≤ c.toNat && c.toNat ≤ 122) || (65 ≤ c.toNat && c.toNat ≤ 90)

/-- `\d`, i.e. `[0-9]` (code points 48-57). -/
def isAsciiDigit (c : Char) : Bool :=
  48 ≤ c.toNat && c.toNat ≤ 57

/-- word character for `\b` boundaries: `[A-Za-z0-9_]` (95 is `_`). -/
def isWordChar (c : Char) : Bool :=
  isAsciiLetter c || isAsciiDigit c || c.toNat = 95

/-! ## `normalize_text` (`preprocessing1.py` lines 41-50)

The five `cleanup_patterns` (lines 30-36), applied in order, then `strip()`. -/

/-- `re.sub(r'\s+', ' ', text)`: every maximal whitespace run becomes one space. -/
def collapseWS : List Char → List Char
  | [] => []
  | [c] => if isPySpace c then [' '] else [c]
  | c :: d :: rest =>
    if isPySpace c && isPySpace d then collapseWS (d :: rest)
    else (if isPySpace c then ' ' else c) :: collapseWS (d :: rest)

/-- Quote standardisation: curly double quotes (and the straight one itself)
become a straight double quote.  (In the packaged repository file the curly
quote characters inside this character class have been garbled to ASCII
quotes; the class is modelled from the spec, which states that curly double
quotes are standardised to straight ones.  No claim below involves quote
characters.) -/
def fixQuotes (s : List Char) : List Char :=
  s.map (fun c => if c = '“' || c = '”' || c = '"' then '"' else c)

/-- Apostrophe standardisation: curly single quotes become a straight
apostrophe (same garbling caveat as `fixQuotes`; modelled from the spec). -/
def fixApostrophes (s : List Char) : List Char :=
  s.map (fun c => if c = '‘' || c = '’' || c = '\'' then '\'' else c)

/-- `re.sub(r'†|‡|\*|\#|¶', '', text)`: drop the five footnote marker glyphs. -/
def removeFootnoteMarks (s : List Char) : List Char :=
  s.filter (fun c => !(c = '†' || c = '‡' || c = '*' || c = '#' || c = '¶'))

/-- One-pass scan implementing `re.sub(r'\[.*?\]', '', text)`.  A match runs
from a `[` to the nearest following `]` with no newline in between (the
non-greedy `.` does not match `\n`); scanning is leftmost and resumes after
each removed span.  `buf` is `some acc` while inside a tentatively open
bracket, `acc` holding the scanned characters in reverse: when the bracket
never closes before a newline or the end of the text there is no match
there (nor at any `[` inside `acc`, which faces the same missing `]`), so
the buffer is emitted verbatim, exactly as `re.sub` leaves an unmatched
`[` in place. -/
def sbGo : Option (List Char) → List Char → List Char
  | none, [] => []
  | some acc, [] => acc.reverse
  | none, c :: s => if c = '[' then sbGo (some [c]) s else c :: sbGo none s
  | some acc, c :: s =>
    if c = ']' then sbGo none s
    else if c = '\n' then acc.reverse ++ '\n' :: sbGo none s
    else sbGo (some (c :: acc)) s

/-- `re.sub(r'\[.*?\]', '', text)`: remove every bracketed span (nearest `]`
on the same line); an unclosed `[` is kept verbatim. -/
def stripBrackets (s : List Char) : List Char := sbGo none s

/-- Python `str.strip()`: drop leading and trailing whitespace. -/
def pyStrip (s : List Char) : List Char :=
  ((s.dropWhile isPySpace).reverse.dropWhile isPySpace).reverse

/-- `unicodedata.normalize('NFKC', text)`.  The texts this development reasons
about are ASCII, on which NFKC is the identity (NFKC is also idempotent in
general), so the model treats its input as already NFKC-normal. -/
def nfkc (s : List Char) : List Char := s

/-- `BiblicalTextPreprocessor.normalize_text` (lines 41-50): NFKC, the five
cleanup patterns in order, then `strip()`. -/
def normalize_text (s : List Char) : List Char :=
  pyStrip (stripBrackets (removeFootnoteMarks (fixApostrophes (fixQuotes
    (collapseWS (nfkc s))))))

/-! ## `clean_bible_text` (lines 52-63) -/

/-- The replacement text `'[\1:\2] '` of the verse-marker rewrite. -/
def verseToken (d1 d2 : List Char) : List Char :=
  '[' :: (d1 ++ ':' :: (d2 ++ [']', ' ']))

/-- `span` of a character predicate: the maximal matching prefix and the rest
(the behaviour of a greedy character-class repetition in a regex). -/
def spanP (p : Char → Bool) : List Char → List Char × List Char
  | [] => ([], [])
  | c :: s =>
    if p c then
      match spanP p s with
      | (a, b) => (c :: a, b)
    else ([], c :: s)

theorem spanP_append (p : Char → Bool) : ∀ s : List Char,
    (spanP p s).1 ++ (spanP p s).2 = s := by
  intro s
  induction s with
  | nil => simp [spanP]
  | cons c t ih =>
    by_cases h : p c
    · simp only [spanP, h, if_pos]
      cases ht : spanP p t with
      | mk a b =>
        rw [ht] at ih
        simpa using ih
    · simp [spanP, h]

theorem spanP_rest_le (p : Char → Bool) (s : List Char) :
    (spanP p s).2.length ≤ s.length := by
  have h := congrArg List.length (spanP_append p s)
  simp only [List.length_append] at h
  omega

/-- One-pass scan implementing
`re.sub(r'(\d+)[:\.](\d+)', r'[\1:\2] ', text)` (line 58).  `re.sub` tries
the pattern at each position, left to right: a match takes the maximal digit
run from its start (the greedy `\d+` cannot usefully backtrack, since giving
back a digit leaves a digit where `[:\.]` must match), so the leftmost match
of `\d+[:\.]` starts at the beginning of a maximal digit run, and every
position inside a run that is not followed by a separator and digits fails
for the same reason the run's start does.  The scan therefore accumulates
the current digit run (`vrDig`, reversed in `acc`), a separator seen after a
run (`vrDig2` with empty `acc2`), and the second digit run (`vrDig2`); a
completed match emits the `[N:M] ` token and resumes after the second run,
and a failed attempt emits the scanned characters verbatim.  The characters
that follow a failed attempt or a completed match are non-digits, so
resuming the plain scan on them is exact. -/
inductive VrMode where
  | scan
  | dig (acc : List Char)
  | sep (acc : List Char) (sepc : Char)
  | dig2 (acc acc2 : List Char)

def vrGo : VrMode → List Char → List Char
  | .scan, [] => []
  | .dig acc, [] => acc.reverse
  | .sep acc sepc, [] => acc.reverse ++ [sepc]
  | .dig2 acc acc2, [] => verseToken acc.reverse acc2.reverse
  | .scan, c :: s => if isAsciiDigit c then vrGo (.dig [c]) s else c :: vrGo .scan s
  | .dig acc, c :: s =>
    if isAsciiDigit c then vrGo (.dig (c :: acc)) s
    else if c = ':' || c = '.' then vrGo (.sep acc c) s
    else acc.reverse ++ c :: vrGo .scan s
  | .sep acc sepc, c :: s =>
    if isAsciiDigit c then vrGo (.dig2 acc [c]) s
    else acc.reverse ++ sepc :: c :: vrGo .scan s
  | .dig2 acc acc2, c :: s =>
    if isAsciiDigit c then vrGo (.dig2 acc (c :: acc2)) s
    else verseToken acc.reverse acc2.reverse ++ c :: vrGo .scan s

/-- `re.sub(r'(\d+)[:\.](\d+)', r'[\1:\2] ', text)`: rewrite every embedded
`N:M` / `N.M` marker into the bracketed token `[N:M] `. -/
def verseRewrite (s : List Char) : List Char := vrGo .scan s

def isPunctCls (c : Char) : Bool :=
  c = ',' || c = '.' || c = ';' || c = ':' || c = '?' || c = '!'

/-- One-pass scan implementing `re.sub(r'\s+([,.;:?!])', r'\1', text)`
(line 61): a maximal whitespace run immediately followed by one of the
punctuation characters is deleted (the greedy `\s+` cannot usefully
backtrack: a shorter run leaves a space where the punctuation class must
match, and every suffix of a run that is not followed by punctuation fails
the same way).  `ws` accumulates the pending whitespace run in reverse. -/
def pfGo (ws : List Char) : List Char → List Char
  | [] => ws.reverse
  | c :: s =>
    if isPySpace c then pfGo (c :: ws) s
    else if isPunctCls c && !ws.isEmpty then c :: pfGo [] s
    else ws.reverse ++ c :: pfGo [] s

/-- `re.sub(r'\s+([,.;:?!])', r'\1', text)`: remove whitespace runs that
immediately precede punctuation. -/
def punctFix (s : List Char) : List Char := pfGo [] s

/-- `BiblicalTextPreprocessor.clean_bible_text` (lines 52-63):
`normalize_text`, verse-marker rewrite, punctuation spacing fix. -/
def clean_bible_text (s : List Char) : List Char :=
  punctFix (verseRewrite (normalize_text s))

/-! ## `clean_commentary_text` (lines 65-80)

Each protected term `t` is re-asserted with
`re.sub(fr'\b§t§\b', t, text, flags=re.IGNORECASE)`: every whole-word,
case-insensitive occurrence of `t` is replaced by `t` itself (the replacement
differs from the match only in letter case).  All four terms begin and end
with word characters, so the `\b` on each side demands a non-word character
(or the text edge) adjacent to the match. -/

/-- Case-insensitive equality of two characters (`re.IGNORECASE` on a
literal pattern character): equal outright, or the same ASCII letter in the
two cases (code points 32 apart).  This agrees with lower-case folding on
all characters, since only the ASCII letters fold. -/
def caseEqChar (a b : Char) : Bool :=
  a = b || (isAsciiLetter a && isAsciiLetter b &&
    (a.toNat + 32 = b.toNat || b.toNat + 32 = a.toNat))

/-- Match the literal pattern `t` case-insensitively at the head of `s`;
return the matched original characters and the rest. -/
def casingMatch : List Char → List Char → Option (List Char × List Char)
  | [], s => some ([], s)
  | _ :: _, [] => none
  | p :: ps, c :: cs =>
    if caseEqChar p c then
      match casingMatch ps cs with
      | some (m, r) => some (c :: m, r)
      | none => none
    else none

theorem casingMatch_spec : ∀ {t s m r : List Char},
    casingMatch t s = some (m, r) → m.length = t.length ∧ s = m ++ r := by
  intro t
  induction t with
  | nil => intro s m r h; simp [casingMatch] at h; simp [h.1, h.2]
  | cons p ps ih =>
    intro s m r h
    cases s with
    | nil => simp [casingMatch] at h
    | cons c cs =>
      simp only [casingMatch] at h
      split at h
      · split at h
        · rename_i m' r' heq
          cases h
          obtain ⟨h1, h2⟩ := ih heq
          constructor
          · simp [h1]
          · simp [h2]
        · cases h
      · cases h

/-- `\b` on the left of a match: start of text or a preceding non-word
character (`prev` is the character just before the current scan position in
the original text). -/
def boundaryBefore : Option Char → Bool
  | none => true
  | some c => !isWordChar c

/-- `\b` on the right of a match whose pattern ends in a word character:
end of text or a following non-word character. -/
def boundaryAfter : List Char → Bool
  | [] => true
  | c :: _ => !isWordChar c

/-- Fuelled scan implementing one pass of
`re.sub(fr'\b§t§\b', t, text, flags=re.IGNORECASE)` for a term `t` that
begins and ends with word characters: scan left to right over the original
text (boundaries are judged on the original text, as `re.sub` does), replace
each leftmost non-overlapping whole-word case-insensitive occurrence of `t`
by `t`, and resume after it with the last matched original character as the
new left context.  The fuel only makes the recursion structural: each step
consumes at least one character, so `subWWCI` below supplies fuel equal to
the text length, which is never exhausted. -/
def subF (t : List Char) : Nat → Option Char → List Char → List Char
  | _, _, [] => []
  | 0, _, s => s
  | Nat.succ n, prev, c :: s =>
    match (if boundaryBefore prev then casingMatch t (c :: s) else none) with
    | some (m, rest) =>
      if boundaryAfter rest && !m.isEmpty then
        t ++ subF t n (some (m.getLast?.getD c)) rest
      else c :: subF t n (some c) s
    | none => c :: subF t n (some c) s

/-- `re.sub(fr'\b§t§\b', t, text, flags=re.IGNORECASE)` with `prev` the
character immediately left of the scan position in the original text. -/
def subWWCI (t : List Char) (prev : Option Char) (s : List Char) : List Char :=
  subF t s.length prev s

def tYHWH : List Char := ['Y', 'H', 'W', 'H']
def tJHVH : List Char := ['J', 'H', 'V', 'H']
def tLORD : List Char := ['L', 'O', 'R', 'D']
def tSonOfMan : List Char := ['S', 'o', 'n', ' ', 'o', 'f', ' ', 'M', 'a', 'n']

/-- The `theological_terms` dict (lines 70-75), in insertion order.  Every
value equals its key, so each substitution replaces a match by the canonical
casing of the term itself. -/
def theologicalTerms : List (List Char) := [tYHWH, tJHVH, tLORD, tSonOfMan]

/-- `BiblicalTextPreprocessor.clean_commentary_text` (lines 65-80):
`normalize_text`, then the four case-insensitive whole-word re-assertion
substitutions, in dict order. -/
def clean_commentary_text (s : List Char) : List Char :=
  theologicalTerms.foldl (fun acc t => subWWCI t none acc) (normalize_text s)

/-! String-level wrappers. -/

def normalize_textS (s : String) : String := ⟨normalize_text s.data⟩
def clean_bible_textS (s : String) : String := ⟨clean_bible_text s.data⟩
def clean_commentary_textS (s : String) : String := ⟨clean_commentary_text s.data⟩

/-! ## Association-list model of Python dicts

Python dicts preserve insertion order and have unique keys; they are modelled
as association lists where `alookup` is `dict.get` and `assocSet` is
`dict[k] = v` (overwriting in place, appending fresh keys at the end). -/

def alookup {α β : Type} [DecidableEq α] : List (α × β) → α → Option β
  | [], _ => none
  | (k, v) :: r, k' => if k = k' then some v else alookup r k'

def assocSet {α β : Type} [DecidableEq α] : List (α × β) → α → β → List (α × β)
  | [], k, v => [(k, v)]
  | (k0, v0) :: r, k, v =>
    if k0 = k then (k, v) :: r else (k0, v0) :: assocSet r k v

/-! ## Data model of the alignment engine (`create_verse_aligned_dataset`,
lines 386-453) -/

/-- `{verse: text}` -/
abbrev VerseMap := List (Int × String)
/-- `{chapter: {verse: text}}` -/
abbrev BookData := List (Int × VerseMap)
/-- a ScriptureCorpus `{book: {chapter: {verse: text}}}` -/
abbrev Corpus := List (String × BookData)
/-- the `bibles` argument `{translation: corpus}` -/
abbrev Bibles := List (String × Corpus)

/-- `bible_data.get(book, §§).get(chapter, §§).get(verse, "")` (line 420). -/
def corpusGet (c : Corpus) (b : String) (ch v : Int) : String :=
  ((alookup ((alookup ((alookup c b).getD []) ch).getD []) v).getD "")

/-- Whether the nested lookup finds the key (the corpus "covers" the verse). -/
def hasKey (c : Corpus) (b : String) (ch v : Int) : Bool :=
  (alookup ((alookup ((alookup c b).getD []) ch).getD []) v).isSome

/-- The `ref` dict built at lines 405-410: the three key fields plus the
derived human-readable reference string. -/
structure Ref where
  book : String
  chapter : Int
  verse : Int
  reference : String
deriving DecidableEq, Repr

def refString (b : String) (ch v : Int) : String :=
  b ++ " " ++ toString ch ++ ":" ++ toString v

def mkRef (b : String) (ch v : Int) : Ref := ⟨b, ch, v, refString b ch v⟩

/-- The traversal order of the nested loops at lines 401-412: for every
translation, book, chapter, verse, the `ref` dict for that verse. -/
def corpusRefs (c : Corpus) : List Ref :=
  c.flatMap (fun bp => bp.2.flatMap (fun cp => cp.2.map (fun vp => mkRef bp.1 cp.1 vp.1)))

def allRefs (bibles : Bibles) : List Ref :=
  bibles.flatMap (fun tc => corpusRefs tc.2)

/-- `if ref not in all_refs: all_refs.append(ref)` (lines 411-412). -/
def insertRef (acc : List Ref) (r : Ref) : List Ref :=
  if r ∈ acc then acc else acc ++ [r]

/-- The deduplicated reference list `all_refs` (lines 398-412). -/
def collectRefs (bibles : Bibles) : List Ref :=
  (allRefs bibles).foldl insertRef []

/-- A commentary record as the alignment engine sees it: a Python dict.  For
the reference fields the outer `Option` models key presence (`none` = the
dict has no such key, as for records produced without a `reference`
element) and the inner `Option` models a Python `None` value (as produced by
the XML commentary parser for a `reference` element with missing
attributes).  `source` and `content` are the mandatory CommentaryRecord
fields; `content` is what the alignment engine reads. -/
structure Entry where
  source : String
  content : String
  book : Option (Option String) := none
  chapter : Option (Option Int) := none
  verse_start : Option (Option Int) := none
  verse_end : Option (Option Int) := none
  tradition : Option String := none
  author : Option String := none
  year : Option (Option Int) := none
deriving DecidableEq, Repr

/-- Keys of `commentary_map` (line 437): the `book` and `chapter` dict values
(possibly `None`) and the verse from the range loop. -/
abbrev CKey := Option String × Option Int × Int
abbrev CMap := List (CKey × List String)

/-- `commentary_map.setdefault(key, []).append(content)` (lines 438-440). -/
def cmapAdd : CMap → CKey → String → CMap
  | [], k, c => [(k, [c])]
  | (k0, cs) :: r, k, c =>
    if k0 = k then (k0, cs ++ [c]) :: r else (k0, cs) :: cmapAdd r k c

def cmapGet (m : CMap) (k : CKey) : List String := (alookup m k).getD []

/-- `n` consecutive integers starting at `a`. -/
def rangeFrom (a : Int) : Nat → List Int
  | 0 => []
  | Nat.succ n => a :: rangeFrom (a + 1) n

/-- Python `range(a, b + 1)` as a list (empty when `b < a`). -/
def rangeIncl (a b : Int) : List Int := rangeFrom a (b + 1 - a).toNat

/-- The reference data the map-building loop reads off an entry dict:
`none` when one of the keys `book`, `chapter`, `verse_start` is absent
(`'book' in entry and 'chapter' in entry and 'verse_start' in entry`, line
430); otherwise the three values (possibly `None`) together with the
`verse_end` value, defaulting to the `verse_start` value when that key is
absent (`entry.get('verse_end', verse_start)`, line 434). -/
def entryRef (e : Entry) :
    Option (Option String × Option Int × Option Int × Option Int) :=
  match e.book, e.chapter, e.verse_start with
  | some bv, some cv, some vsv =>
    some (bv, cv, vsv, (match e.verse_end with | some w => w | none => vsv))
  | _, _, _ => none

/-- Processing of one entry by the map-building loop (lines 429-440):
a participating entry appends its content at every key
`(book, chapter, verse)` for `verse` in `range(verse_start, verse_end + 1)`;
that `range` raises a `TypeError` when either bound is `None`. -/
def cmapAddEntry (m : CMap) (e : Entry) : Except String CMap :=
  match entryRef e with
  | none => Except.ok m
  | some (bv, cv, vsv, vev) =>
    match vsv, vev with
    | some vs, some ve =>
      Except.ok ((rangeIncl vs ve).foldl
        (fun m' w => cmapAdd m' (bv, cv, w) e.content) m)
    | _, _ => Except.error "TypeError"

/-- The entry loop building the per-source `commentary_map` (lines 429-440);
a raised `TypeError` aborts it. -/
def buildCMapGo (m : CMap) : List Entry → Except String CMap
  | [] => Except.ok m
  | e :: t =>
    match cmapAddEntry m e with
    | Except.error err => Except.error err
    | Except.ok m1 => buildCMapGo m1 t

/-- The per-source `commentary_map` (lines 427-440). -/
def buildCMap (entries : List Entry) : Except String CMap :=
  buildCMapGo [] entries

/-- The loop over commentary sources (line 425); a `TypeError` raised while
processing one source aborts the whole call. -/
def buildCMaps : List (String × List Entry) → Except String (List (String × CMap))
  | [] => Except.ok []
  | (s, es) :: r =>
    match buildCMap es with
    | Except.error e => Except.error e
    | Except.ok m =>
      match buildCMaps r with
      | Except.error e => Except.error e
      | Except.ok rest => Except.ok ((s, m) :: rest)

/-- `"; ".join(...)` (line 444). -/
def joinSemi (l : List String) : String := String.intercalate "; " l

/-- One row of the aligned DataFrame: the four fixed columns, the
`text_§translation§` columns in `bibles` order and the
`commentary_§source§` columns in `commentaries` order. -/
structure AlignedRow where
  book : String
  chapter : Int
  verse : Int
  reference : String
  texts : List (String × String)
  comms : List (String × String)
deriving DecidableEq, Repr

def mkAlignedRow (bibles : Bibles) (cms : List (String × CMap)) (r : Ref) : AlignedRow :=
  { book := r.book, chapter := r.chapter, verse := r.verse,
    reference := r.reference,
    texts := bibles.map (fun tc => (tc.1, corpusGet tc.2 r.book r.chapter r.verse)),
    comms := cms.map (fun sm =>
      (sm.1, joinSemi (cmapGet sm.2 (some r.book, some r.chapter, r.verse)))) }

/-- `BiblicalTextPreprocessor.create_verse_aligned_dataset` (lines 386-453):
collect the deduplicated reference list, build the per-source commentary
maps (a `TypeError` there propagates and no table is returned), and emit
one row per reference with per-translation text lookups (default `""`) and
per-source semicolon-joined commentary lookups (default `""`). -/
def create_verse_aligned_dataset (bibles : Bibles)
    (commentaries : List (String × List Entry)) : Except String (List AlignedRow) :=
  match buildCMaps commentaries with
  | Except.error e => Except.error e
  | Except.ok cms => Except.ok ((collectRefs bibles).map (mkAlignedRow bibles cms))

/-! ## Membership predicates used to state the alignment claims -/

/-- The key `(b, ch, v)` occurs in the corpus traversal (this is dict-key
membership when the nested dicts are well-formed association lists). -/
def keyInCorpus (c : Corpus) (b : String) (ch v : Int) : Bool :=
  c.any (fun bp => bp.1 = b && bp.2.any (fun cp =>
    cp.1 = ch && cp.2.any (fun vp => vp.1 = v)))

/-- The key occurs in the union of all corpora. -/
def keyInUnion (bibles : Bibles) (b : String) (ch v : Int) : Bool :=
  bibles.any (fun tc => keyInCorpus tc.2 b ch v)

/-- Whether a record, as the successful map construction indexes it, covers
the row key `(b, ch, v)`: reference keys present, values non-null, book and
chapter equal, verse within `[verse_start, verse_end]` (`verse_end`
defaulting to `verse_start`). -/
def entryCovers (e : Entry) (b : String) (ch v : Int) : Bool :=
  match entryRef e with
  | some (bv, cv, some vs, some ve) =>
    decide (bv = some b) && decide (cv = some ch) &&
      decide (vs ≤ v) && decide (v ≤ ve)
  | _ => false

/-- The contents of the records covering `(b, ch, v)`, in record order. -/
def matchingContents (es : List Entry) (b : String) (ch v : Int) : List String :=
  es.filterMap (fun e => if entryCovers e b ch v then some e.content else none)

/-! ## C1, C9, C10: behaviour of the cleaners on concrete scripture text -/

/-- C1 (code bug).  The claim — `clean_bible_text` is idempotent, and
re-running it on already-clean text containing a bracketed `[N:M]` token is
a no-op — is what the spec requires (§4.2, §8), but the code violates it:
on `"John 3:16"` one application yields `"John [3:16] "`, and a second
application lets the normalizer's bracket-stripping pattern delete the
freshly produced `[3:16]` token, yielding `"John"`.  The spec itself calls
this collision a latent defect of the source (§9), so the code, not the
claim, is wrong. -/
theorem C1_clean_bible_text_not_idempotent :
    clean_bible_textS (clean_bible_textS "John 3:16") = "John"
    ∧ clean_bible_textS "John 3:16" = "John [3:16] "
    ∧ clean_bible_textS (clean_bible_textS "John 3:16")
        ≠ clean_bible_textS "John 3:16" := by
  refine ⟨by decide, by decide, by decide⟩

/-- C9 (confirmed).  `clean_bible_text` can return text with trailing
whitespace even though `normalize_text` trims: on `"John 3:16"` the
verse-marker rewrite appends the token `"[3:16] "` with a trailing space
after normalization's trim has already run, no later step removes it, and
the returned value ends with a space. -/
theorem C9_clean_bible_text_trailing_space :
    clean_bible_textS "John 3:16" = "John [3:16] "
    ∧ (clean_bible_text ("John 3:16".data)).getLast? = some ' ' := by
  refine ⟨by decide, by decide⟩

/-- Whether a character list contains two consecutive spaces. -/
def hasDoubleSpace : List Char → Bool
  | [] => false
  | [_] => false
  | a :: b :: r => (a = ' ' && b = ' ') || hasDoubleSpace (b :: r)

/-- C10 (confirmed).  `normalize_text` can return runs of two or more
consecutive spaces, because whitespace collapse runs before bracketed-span
removal: `"a [x] b"` yields `"a  b"` with two interior spaces. -/
theorem C10_normalize_text_double_space :
    normalize_textS "a [x] b" = "a  b"
    ∧ hasDoubleSpace (normalize_text ("a [x] b".data)) = true := by
  refine ⟨by decide, by decide⟩

/-! ## Lemmas about the reference-collection loop -/

theorem mkRef_book (b : String) (ch v : Int) : (mkRef b ch v).book = b := rfl
theorem mkRef_chapter (b : String) (ch v : Int) : (mkRef b ch v).chapter = ch := rfl
theorem mkRef_verse (b : String) (ch v : Int) : (mkRef b ch v).verse = v := rfl

theorem mem_insertRef {acc : List Ref} {a r : Ref} :
    r ∈ insertRef acc a ↔ r ∈ acc ∨ r = a := by
  unfold insertRef
  split
  · rename_i h
    constructor
    · exact Or.inl
    · rintro (h1 | rfl)
      · exact h1
      · exact h
  · simp [List.mem_append]

theorem nodup_insertRef {acc : List Ref} {a : Ref} (h : acc.Nodup) :
    (insertRef acc a).Nodup := by
  unfold insertRef
  split
  · exact h
  · rename_i hna
    simp [List.nodup_append, h, hna]

theorem mem_foldl_insertRef (l : List Ref) (acc : List Ref) (r : Ref) :
    r ∈ l.foldl insertRef acc ↔ r ∈ acc ∨ r ∈ l := by
  induction l generalizing acc with
  | nil => simp
  | cons a t ih =>
    simp only [List.foldl_cons, ih, mem_insertRef, List.mem_cons]
    tauto

theorem nodup_foldl_insertRef (l : List Ref) (acc : List Ref) (h : acc.Nodup) :
    (l.foldl insertRef acc).Nodup := by
  induction l generalizing acc with
  | nil => simpa
  | cons a t ih => exact ih _ (nodup_insertRef h)

theorem mkRef_inj {b b' : String} {ch ch' v v' : Int}
    (h : mkRef b ch v = mkRef b' ch' v') : b = b' ∧ ch = ch' ∧ v = v' := by
  have h1 := congrArg Ref.book h
  have h2 := congrArg Ref.chapter h
  have h3 := congrArg Ref.verse h
  exact ⟨h1, h2, h3⟩

theorem mem_corpusRefs_shape {c : Corpus} {r : Ref} (h : r ∈ corpusRefs c) :
    r = mkRef r.book r.chapter r.verse := by
  simp only [corpusRefs, List.mem_flatMap, List.mem_map] at h
  obtain ⟨bp, _, cp, _, vp, _, rfl⟩ := h
  rfl

theorem mkRef_mem_corpusRefs {c : Corpus} {b : String} {ch v : Int} :
    mkRef b ch v ∈ corpusRefs c ↔ keyInCorpus c b ch v = true := by
  simp only [corpusRefs, List.mem_flatMap, List.mem_map, keyInCorpus,
    List.any_eq_true, Bool.and_eq_true, decide_eq_true_eq]
  constructor
  · rintro ⟨bp, hbp, cp, hcp, vp, hvp, heq⟩
    obtain ⟨h1, h2, h3⟩ := mkRef_inj heq
    exact ⟨bp, hbp, h1, cp, hcp, h2, vp, hvp, h3⟩
  · rintro ⟨bp, hbp, rfl, cp, hcp, rfl, vp, hvp, rfl⟩
    exact ⟨bp, hbp, cp, hcp, vp, hvp, rfl⟩

theorem mem_allRefs_shape {bibles : Bibles} {r : Ref} (h : r ∈ allRefs bibles) :
    r = mkRef r.book r.chapter r.verse := by
  simp only [allRefs, List.mem_flatMap] at h
  obtain ⟨tc, _, hm⟩ := h
  exact mem_corpusRefs_shape hm

theorem mkRef_mem_allRefs {bibles : Bibles} {b : String} {ch v : Int} :
    mkRef b ch v ∈ allRefs bibles ↔ keyInUnion bibles b ch v = true := by
  simp only [allRefs, List.mem_flatMap, keyInUnion, List.any_eq_true]
  constructor
  · rintro ⟨tc, htc, hm⟩
    exact ⟨tc, htc, mkRef_mem_corpusRefs.mp hm⟩
  · rintro ⟨tc, htc, hm⟩
    exact ⟨tc, htc, mkRef_mem_corpusRefs.mpr hm⟩

theorem mem_collectRefs {bibles : Bibles} {r : Ref} :
    r ∈ collectRefs bibles ↔ r ∈ allRefs bibles := by
  unfold collectRefs
  rw [mem_foldl_insertRef]
  simp

theorem nodup_collectRefs (bibles : Bibles) : (collectRefs bibles).Nodup :=
  nodup_foldl_insertRef _ _ List.nodup_nil

theorem mem_collectRefs_shape {bibles : Bibles} {r : Ref}
    (h : r ∈ collectRefs bibles) : r = mkRef r.book r.chapter r.verse :=
  mem_allRefs_shape (mem_collectRefs.mp h)

/-! ## Lemmas about the commentary map -/

theorem cmapGet_cmapAdd_self (m : CMap) (k : CKey) (c : String) :
    cmapGet (cmapAdd m k c) k = cmapGet m k ++ [c] := by
  induction m with
  | nil => simp [cmapAdd, cmapGet, alookup]
  | cons p r ih =>
    obtain ⟨k0, cs⟩ := p
    by_cases h : k0 = k
    · subst h
      simp [cmapAdd, cmapGet, alookup]
    · simp only [cmapAdd, if_neg h, cmapGet, alookup]
      simpa only [cmapGet] using ih

theorem cmapGet_cmapAdd_ne (m : CMap) {k k' : CKey} (c : String) (h : k ≠ k') :
    cmapGet (cmapAdd m k c) k' = cmapGet m k' := by
  induction m with
  | nil => simp [cmapAdd, cmapGet, alookup, h]
  | cons p r ih =>
    obtain ⟨k0, cs⟩ := p
    by_cases h0 : k0 = k
    · subst h0
      simp [cmapAdd, cmapGet, alookup, h]
    · simp only [cmapAdd, if_neg h0, cmapGet, alookup]
      by_cases h1 : k0 = k'
      · simp [h1]
      · simp only [if_neg h1]
        simpa only [cmapGet] using ih

theorem mem_rangeFrom {x : Int} : ∀ {n : Nat} {a : Int},
    x ∈ rangeFrom a n ↔ a ≤ x ∧ x < a + n := by
  intro n
  induction n with
  | zero =>
    intro a
    rw [rangeFrom]
    simp only [List.not_mem_nil, false_iff]
    omega
  | succ k ih =>
    intro a
    simp only [rangeFrom, List.mem_cons, ih]
    constructor
    · rintro (rfl | ⟨h1, h2⟩) <;> omega
    · rintro ⟨h1, h2⟩
      by_cases hx : x = a
      · exact Or.inl hx
      · exact Or.inr ⟨by omega, by omega⟩

theorem nodup_rangeFrom : ∀ (n : Nat) (a : Int), (rangeFrom a n).Nodup := by
  intro n
  induction n with
  | zero => intro a; simp [rangeFrom]
  | succ k ih =>
    intro a
    simp only [rangeFrom, List.nodup_cons]
    refine ⟨?_, ih (a + 1)⟩
    rw [mem_rangeFrom]
    omega

theorem mem_rangeIncl {a b x : Int} : x ∈ rangeIncl a b ↔ a ≤ x ∧ x ≤ b := by
  unfold rangeIncl
  rw [mem_rangeFrom]
  omega

theorem nodup_rangeIncl (a b : Int) : (rangeIncl a b).Nodup :=
  nodup_rangeFrom _ _

theorem cmapGet_foldl_verses (l : List Int) (hl : l.Nodup)
    (bv : Option String) (cv : Option Int) (content : String)
    (m : CMap) (b : String) (ch v : Int) :
    cmapGet (l.foldl (fun m' w => cmapAdd m' (bv, cv, w) content) m)
        (some b, some ch, v)
      = cmapGet m (some b, some ch, v) ++
        (if bv = some b ∧ cv = some ch ∧ v ∈ l then [content] else []) := by
  induction l generalizing m with
  | nil => simp
  | cons w t ih =>
    have ht : t.Nodup := List.Nodup.of_cons hl
    have hwt : w ∉ t := (List.nodup_cons.mp hl).1
    simp only [List.foldl_cons]
    rw [ih ht]
    by_cases hk : ((bv, cv, w) : CKey) = (some b, some ch, v)
    · have hb : bv = some b := congrArg Prod.fst hk
      have hc : cv = some ch := congrArg (fun p => p.2.1) hk
      have hw : w = v := congrArg (fun p => p.2.2) hk
      rw [hk, cmapGet_cmapAdd_self]
      have hvt : v ∉ t := hw ▸ hwt
      simp [hb, hc, hw, hvt, List.append_assoc]
    · rw [cmapGet_cmapAdd_ne _ _ hk]
      congr 1
      by_cases hb : bv = some b
      · by_cases hc : cv = some ch
        · have hw : ¬ v = w := by
            intro hv
            exact hk (by rw [hb, hc, hv])
          simp [hb, hc, hw]
        · simp [hc]
      · simp [hb]

theorem cmapGet_cmapAddEntry {m m' : CMap} {e : Entry}
    (h : cmapAddEntry m e = Except.ok m') (b : String) (ch v : Int) :
    cmapGet m' (some b, some ch, v)
      = cmapGet m (some b, some ch, v) ++
        (if entryCovers e b ch v then [e.content] else []) := by
  unfold cmapAddEntry at h
  unfold entryCovers
  cases her : entryRef e with
  | none => rw [her] at h; cases h; simp
  | some q =>
    obtain ⟨bv, cv, vsv, vev⟩ := q
    rw [her] at h
    cases vsv with
    | none => cases h
    | some vs =>
      cases vev with
      | none => cases h
      | some ve =>
        cases h
        rw [cmapGet_foldl_verses _ (nodup_rangeIncl vs ve)]
        congr 1
        by_cases hcov : (decide (bv = some b) && decide (cv = some ch) &&
            decide (vs ≤ v) && decide (v ≤ ve)) = true
        · rw [if_pos hcov]
          simp only [Bool.and_eq_true, decide_eq_true_eq] at hcov
          obtain ⟨⟨⟨h1, h2⟩, h3⟩, h4⟩ := hcov
          rw [if_pos ⟨h1, h2, mem_rangeIncl.mpr ⟨h3, h4⟩⟩]
        · rw [if_neg hcov, if_neg]
          rintro ⟨h1, h2, h3⟩
          obtain ⟨h3, h4⟩ := mem_rangeIncl.mp h3
          exact hcov (by simp [h1, h2, h3, h4])

theorem buildCMap_fold {es : List Entry} : ∀ {m0 m : CMap},
    buildCMapGo m0 es = Except.ok m → ∀ (b : String) (ch v : Int),
    cmapGet m (some b, some ch, v)
      = cmapGet m0 (some b, some ch, v) ++ matchingContents es b ch v := by
  induction es with
  | nil =>
    intro m0 m h b ch v
    simp only [buildCMapGo] at h
    cases h
    simp [matchingContents]
  | cons e t ih =>
    intro m0 m h b ch v
    simp only [buildCMapGo] at h
    cases he : cmapAddEntry m0 e with
    | error err => rw [he] at h; cases h
    | ok m1 =>
      rw [he] at h
      rw [ih h, cmapGet_cmapAddEntry he]
      simp only [matchingContents, List.filterMap_cons]
      split
      · simp [List.append_assoc]
      · simp [List.append_assoc]

theorem buildCMap_lookup {es : List Entry} {m : CMap}
    (h : buildCMap es = Except.ok m) (b : String) (ch v : Int) :
    cmapGet m (some b, some ch, v) = matchingContents es b ch v := by
  have := buildCMap_fold h b ch v
  simpa [cmapGet, alookup] using this

theorem buildCMaps_ok : ∀ {cs : List (String × List Entry)}
    {cms : List (String × CMap)}, buildCMaps cs = Except.ok cms →
    List.Forall₂ (fun (se : String × List Entry) (sm : String × CMap) =>
      se.1 = sm.1 ∧ buildCMap se.2 = Except.ok sm.2) cs cms := by
  intro cs
  induction cs with
  | nil =>
    intro cms h
    simp only [buildCMaps] at h
    cases h
    exact List.Forall₂.nil
  | cons p t ih =>
    intro cms h
    obtain ⟨s, es⟩ := p
    simp only [buildCMaps] at h
    cases hm : buildCMap es with
    | error e => rw [hm] at h; cases h
    | ok m =>
      rw [hm] at h
      cases hr : buildCMaps t with
      | error e => rw [hr] at h; cases h
      | ok rest =>
        rw [hr] at h
        cases h
        exact List.Forall₂.cons ⟨rfl, hm⟩ (ih hr)

theorem create_ok {bibles : Bibles} {cs : List (String × List Entry)}
    {rows : List AlignedRow}
    (h : create_verse_aligned_dataset bibles cs = Except.ok rows) :
    ∃ cms, buildCMaps cs = Except.ok cms
      ∧ rows = (collectRefs bibles).map (mkAlignedRow bibles cms) := by
  unfold create_verse_aligned_dataset at h
  cases hb : buildCMaps cs with
  | error e => rw [hb] at h; cases h
  | ok cms =>
    rw [hb] at h
    cases h
    exact ⟨cms, rfl, rfl⟩

theorem corpusGet_eq_empty {c : Corpus} {b : String} {ch v : Int}
    (h : hasKey c b ch v = false) : corpusGet c b ch v = "" := by
  unfold hasKey at h
  unfold corpusGet
  cases halt : alookup ((alookup ((alookup c b).getD []) ch).getD []) v with
  | none => simp
  | some t => rw [halt] at h; simp at h

theorem mkAlignedRow_book (bibles : Bibles) (cms : List (String × CMap))
    (r : Ref) : (mkAlignedRow bibles cms r).book = r.book := rfl
theorem mkAlignedRow_chapter (bibles : Bibles) (cms : List (String × CMap))
    (r : Ref) : (mkAlignedRow bibles cms r).chapter = r.chapter := rfl
theorem mkAlignedRow_verse (bibles : Bibles) (cms : List (String × CMap))
    (r : Ref) : (mkAlignedRow bibles cms r).verse = r.verse := rfl

theorem mkAlignedRow_comms (bibles : Bibles) (cms : List (String × CMap))
    (r : Ref) : (mkAlignedRow bibles cms r).comms = cms.map (fun sm =>
      (sm.1, joinSemi (cmapGet sm.2 (some r.book, some r.chapter, r.verse)))) := rfl

/-- Pointwise consequence of `buildCMaps_ok`: the source-keyed column values
computed from the maps agree with the record-level `matchingContents`. -/
theorem cms_map_eq {commentaries : List (String × List Entry)}
    {cms : List (String × CMap)}
    (hfa : List.Forall₂ (fun (se : String × List Entry) (sm : String × CMap) =>
      se.1 = sm.1 ∧ buildCMap se.2 = Except.ok sm.2) commentaries cms)
    (b : String) (ch v : Int) :
    cms.map (fun sm => (sm.1, joinSemi (cmapGet sm.2 (some b, some ch, v))))
      = commentaries.map (fun se =>
          (se.1, joinSemi (matchingContents se.2 b ch v))) := by
  induction hfa with
  | nil => rfl
  | cons hpq hrest ihrest =>
    simp only [List.map_cons]
    rw [ihrest]
    obtain ⟨hname, hmap⟩ := hpq
    rw [← hname, buildCMap_lookup hmap]

/-! ## C2 and C3: the alignment engine -/

/-- C2 (confirmed).  Whenever `create_verse_aligned_dataset` returns a
table, it has exactly one row per distinct `(book, chapter, verse)` key
appearing in the union of all corpora — the row keys are duplicate-free and
a key occurs among them iff it occurs in some corpus — and every row's
translation columns are exactly the per-corpus lookups with default `""`:
a translation whose corpus lacks the row's key holds the empty string,
never an error. -/
theorem C2_alignment_row_per_key (bibles : Bibles)
    (commentaries : List (String × List Entry)) (rows : List AlignedRow)
    (h : create_verse_aligned_dataset bibles commentaries = Except.ok rows) :
    (rows.map (fun r => (r.book, r.chapter, r.verse))).Nodup
    ∧ (∀ b ch v, ((b, ch, v) ∈ rows.map (fun r => (r.book, r.chapter, r.verse)))
        ↔ keyInUnion bibles b ch v = true)
    ∧ (∀ r ∈ rows, r.texts = bibles.map
        (fun tc => (tc.1, corpusGet tc.2 r.book r.chapter r.verse)))
    ∧ (∀ r ∈ rows, ∀ tc ∈ bibles, hasKey tc.2 r.book r.chapter r.verse = false →
        corpusGet tc.2 r.book r.chapter r.verse = "") := by
  obtain ⟨cms, hcms, hrows⟩ := create_ok h
  subst hrows
  refine ⟨?_, ?_, ?_, ?_⟩
  · rw [List.map_map]
    refine List.Nodup.map_on ?_ (nodup_collectRefs bibles)
    intro x hx y hy hxy
    simp only [Function.comp_apply, mkAlignedRow_book, mkAlignedRow_chapter,
      mkAlignedRow_verse] at hxy
    rw [Prod.mk.injEq, Prod.mk.injEq] at hxy
    obtain ⟨h1, h2, h3⟩ := hxy
    rw [mem_collectRefs_shape hx, mem_collectRefs_shape hy, h1, h2, h3]
  · intro b ch v
    rw [List.map_map]
    constructor
    · intro hm
      rw [List.mem_map] at hm
      obtain ⟨ref, href, heq⟩ := hm
      simp only [Function.comp_apply, mkAlignedRow_book, mkAlignedRow_chapter,
        mkAlignedRow_verse] at heq
      rw [Prod.mk.injEq, Prod.mk.injEq] at heq
      obtain ⟨h1, h2, h3⟩ := heq
      have hshape := mem_collectRefs_shape href
      rw [hshape, h1, h2, h3] at href
      exact mkRef_mem_allRefs.mp (mem_collectRefs.mp href)
    · intro hu
      rw [List.mem_map]
      exact ⟨mkRef b ch v, mem_collectRefs.mpr (mkRef_mem_allRefs.mpr hu), rfl⟩
  · intro r hr
    rw [List.mem_map] at hr
    obtain ⟨ref, _, rfl⟩ := hr
    rfl
  · intro r hr tc htc hf
    exact corpusGet_eq_empty hf

def exC2KJV : Corpus := [("Genesis", [(1, [(1, "kjv one one")])])]
def exC2NIV : Corpus := [("Genesis", [(1, [(1, "niv one one"), (2, "niv one two")])])]
def exC2Bibles : Bibles := [("KJV", exC2KJV), ("NIV", exC2NIV)]
def exC2Rows : List AlignedRow :=
  (create_verse_aligned_dataset exC2Bibles []).toOption.getD []

/-- Witness for C2 at the spec's own example: one corpus covering Genesis
1:1 only and another covering Genesis 1:1 and 1:2 give exactly 2 rows, the
Genesis 1:2 key is present, and the first translation's lookup there is the
empty string. -/
theorem C2_alignment_row_per_key_witness :
    (exC2Rows.map (fun r => (r.book, r.chapter, r.verse))).Nodup
    ∧ (("Genesis", (1 : Int), (2 : Int))
        ∈ exC2Rows.map (fun r => (r.book, r.chapter, r.verse)))
    ∧ exC2Rows.length = 2
    ∧ corpusGet exC2KJV "Genesis" 1 2 = "" := by
  obtain ⟨h1, h2, h3, h4⟩ := C2_alignment_row_per_key exC2Bibles [] exC2Rows rfl
  exact ⟨h1, (h2 "Genesis" 1 2).mpr (by decide), by decide, by decide⟩

/-- C3 (confirmed).  Whenever `create_verse_aligned_dataset` returns a
table, each row's commentary column for each source is exactly the
`"; "`-join, in record order, of the contents of that source's records
covering the row's key (reference keys present with non-null values, same
book and chapter, verse within the inclusive `[verse_start, verse_end]`
range):  a covering record's content hence appears in every covered row's
column, a record covers no other row's key, and a key no record covers
yields the join of the empty list, the empty string. -/
theorem C3_commentary_range_join (bibles : Bibles)
    (commentaries : List (String × List Entry)) (rows : List AlignedRow)
    (h : create_verse_aligned_dataset bibles commentaries = Except.ok rows) :
    (∀ r ∈ rows, r.comms = commentaries.map (fun se =>
        (se.1, joinSemi (matchingContents se.2 r.book r.chapter r.verse))))
    ∧ (∀ r ∈ rows, ∀ se ∈ commentaries, ∀ e ∈ se.2,
        entryCovers e r.book r.chapter r.verse = true →
          e.content ∈ matchingContents se.2 r.book r.chapter r.verse)
    ∧ joinSemi [] = "" := by
  obtain ⟨cms, hcms, hrows⟩ := create_ok h
  subst hrows
  have hfa := buildCMaps_ok hcms
  refine ⟨?_, ?_, rfl⟩
  · intro r hr
    rw [List.mem_map] at hr
    obtain ⟨ref, _, rfl⟩ := hr
    rw [mkAlignedRow_comms]
    simp only [mkAlignedRow_book, mkAlignedRow_chapter, mkAlignedRow_verse]
    exact cms_map_eq hfa ref.book ref.chapter ref.verse
  · intro r hr se hse e he hcov
    unfold matchingContents
    rw [List.mem_filterMap]
    exact ⟨e, he, by rw [if_pos hcov]⟩

def exC3John : Corpus := [("John", [(3, [(16, "v16"), (17, "v17"), (18, "v18")])])]
def exC3Bibles : Bibles := [("KJV", exC3John)]
def exC3Entry : Entry :=
  { source := "mh", content := "mh-note", book := some (some "John"),
    chapter := some (some 3), verse_start := some (some 16),
    verse_end := some (some 17) }
def exC3Comms : List (String × List Entry) := [("mh", [exC3Entry])]
def exC3Rows : List AlignedRow :=
  (create_verse_aligned_dataset exC3Bibles exC3Comms).toOption.getD []

/-- Witness for C3 at the spec's own example: a record for John 3:16-17
appears in the commentary column of the John 3:16 and John 3:17 rows and in
no other (the John 3:18 row's column is empty). -/
theorem C3_commentary_range_join_witness :
    exC3Rows.map (fun r => r.comms)
      = [[("mh", "mh-note")], [("mh", "mh-note")], [("mh", "")]] := by
  have h := (C3_commentary_range_join exC3Bibles exC3Comms exC3Rows rfl).1
  rw [List.map_congr_left h]
  decide

/-! ## The XML parsers (`_process_xml_bible`, lines 113-135, and
`_process_xml_commentary`, lines 245-273)

The parsers are modelled on the element trees that `BeautifulSoup` hands the
source code: a scripture file is a list of book elements with `name`
attributes, chapter/verse children and `number` attributes; a commentary
file is a list of entry elements with optional `content` text, `tradition`
attribute and `reference` / `author` children.  Attribute values are strings
(`none` = attribute absent). -/

/-- Decimal digit list to a natural number (most significant first). -/
def digitsToNat : List Char → Nat → Nat
  | [], acc => acc
  | c :: r, acc => digitsToNat r (acc * 10 + (c.toNat - '0'.toNat))

/-- Python `int()` applied to a string: optional surrounding whitespace,
optional sign, at least one digit; anything else raises a `ValueError`. -/
def pyInt (s : List Char) : Except String Int :=
  match pyStrip s with
  | '-' :: ds =>
    if ds.isEmpty || !ds.all isAsciiDigit then Except.error "ValueError"
    else Except.ok (-(digitsToNat ds 0 : Int))
  | '+' :: ds =>
    if ds.isEmpty || !ds.all isAsciiDigit then Except.error "ValueError"
    else Except.ok ((digitsToNat ds 0 : Int))
  | ds =>
    if ds.isEmpty || !ds.all isAsciiDigit then Except.error "ValueError"
    else Except.ok ((digitsToNat ds 0 : Int))

structure VerseElem where
  number : Option String := none
  text : String := ""
deriving DecidableEq, Repr

structure ChapterElem where
  number : Option String := none
  verses : List VerseElem := []
deriving DecidableEq, Repr

structure BookElem where
  name : Option String := none
  chapters : List ChapterElem := []
deriving DecidableEq, Repr

/-- The corpus shape `_process_xml_bible` builds: `book_elem.get('name')`
may be `None`, so book keys are `Option String`. -/
abbrev XCorpus := List (Option String × BookData)

/-- The verse loop (lines 126-129): `int(verse_elem.get('number'))` raises a
`TypeError` when the attribute is absent (`int(None)`), a `ValueError` when
it is not numeric; the verse text is cleaned and stored. -/
def processXmlVerses (cd : VerseMap) : List VerseElem → Except String VerseMap
  | [] => Except.ok cd
  | ve :: r =>
    match ve.number with
    | none => Except.error "TypeError"
    | some ns =>
      match pyInt ns.data with
      | Except.error e => Except.error e
      | Except.ok n => processXmlVerses (assocSet cd n (clean_bible_textS ve.text)) r

/-- The chapter loop (lines 122-131). -/
def processXmlChapters (bd : BookData) : List ChapterElem → Except String BookData
  | [] => Except.ok bd
  | ce :: r =>
    match ce.number with
    | none => Except.error "TypeError"
    | some ns =>
      match pyInt ns.data with
      | Except.error e => Except.error e
      | Except.ok n =>
        match processXmlVerses [] ce.verses with
        | Except.error e => Except.error e
        | Except.ok cd => processXmlChapters (assocSet bd n cd) r

/-- The book loop (lines 118-133). -/
def processXmlBooks (acc : XCorpus) : List BookElem → Except String XCorpus
  | [] => Except.ok acc
  | be :: r =>
    match processXmlChapters [] be.chapters with
    | Except.error e => Except.error e
    | Except.ok bd => processXmlBooks (assocSet acc be.name bd) r

/-- `_process_xml_bible` (lines 113-135) on the parsed element tree; the
`translation` argument is unused by the source function body.  There is no
exception handling: any raised error propagates. -/
def processXmlBible (books : List BookElem) (translation : String) :
    Except String XCorpus :=
  processXmlBooks [] books

structure RefElem where
  book : Option String := none
  chapter : Option String := none
  verse_start : Option String := none
  verse_end : Option String := none
deriving DecidableEq, Repr

structure AuthorElem where
  text : String := ""
  year : Option String := none
deriving DecidableEq, Repr

structure EntryElem where
  content : Option String := none
  tradition : Option String := none
  ref : Option RefElem := none
  author : Option AuthorElem := none
deriving DecidableEq, Repr

/-- `int(ref_elem.get(a)) if ref_elem.get(a) else None`: an absent attribute
— or an empty string, which is falsy — gives `None`; otherwise `int()`, which
may raise a `ValueError`. -/
def attrToInt (a : Option String) : Except String (Option Int) :=
  match a with
  | none => Except.ok none
  | some s =>
    if s.isEmpty then Except.ok none
    else
      match pyInt s.data with
      | Except.error e => Except.error e
      | Except.ok n => Except.ok (some n)

/-- One `entry` element (lines 250-271): `entry_elem.find('content').text`
raises an `AttributeError` when the `content` child is missing (`find`
returns `None`); `tradition` defaults to `"unknown"`; a `reference` child
sets the `book`/`chapter`/`verse_start`/`verse_end` dict keys (values may be
`None`; `verse_end` defaults to the `verse_start` value); an `author` child
sets `author`/`year`. -/
def processXmlEntry (source : String) (el : EntryElem) : Except String Entry :=
  match el.content with
  | none => Except.error "AttributeError"
  | some ctext =>
    let e0 : Entry :=
      { source := source, content := clean_commentary_textS ctext,
        tradition := some (el.tradition.getD "unknown") }
    let withRef : Except String Entry :=
      match el.ref with
      | none => Except.ok e0
      | some re =>
        match attrToInt re.chapter with
        | Except.error err => Except.error err
        | Except.ok chv =>
          match attrToInt re.verse_start with
          | Except.error err => Except.error err
          | Except.ok vsv =>
            match attrToInt re.verse_end with
            | Except.error err => Except.error err
            | Except.ok vev =>
              Except.ok { e0 with
                book := some re.book, chapter := some chv,
                verse_start := some vsv,
                verse_end := some (match vev with | some w => some w | none => vsv) }
    match withRef with
    | Except.error err => Except.error err
    | Except.ok e1 =>
      match el.author with
      | none => Except.ok e1
      | some au =>
        match attrToInt au.year with
        | Except.error err => Except.error err
        | Except.ok yv => Except.ok { e1 with author := some au.text, year := some yv }

def processXmlCommentaryGo (source : String) :
    List EntryElem → Except String (List Entry)
  | [] => Except.ok []
  | el :: r =>
    match processXmlEntry source el with
    | Except.error e => Except.error e
    | Except.ok en =>
      match processXmlCommentaryGo source r with
      | Except.error e => Except.error e
      | Except.ok rest => Except.ok (en :: rest)

/-- `_process_xml_commentary` (lines 245-273) on the parsed element tree;
no exception handling, any raised error propagates. -/
def processXmlCommentary (elems : List EntryElem) (source : String) :
    Except String (List Entry) :=
  processXmlCommentaryGo source elems

/-! ## The JSON scripture parser (`_process_json_bible`, lines 137-184) -/

/-- JSON values as `json.loads` returns them; numbers restricted to the
integers the parser's `int()` coercions read. -/
inductive Json where
  | null
  | bool (b : Bool)
  | num (n : Int)
  | str (s : String)
  | arr (elems : List Json)
  | obj (fields : List (String × Json))
deriving Repr

def listIsPrefixB : List Char → List Char → Bool
  | [], _ => true
  | _ :: _, [] => false
  | a :: as, b :: bs => a == b && listIsPrefixB as bs

/-- Python `needle in haystack` for strings: substring test. -/
def listIsSubstr (needle : List Char) : List Char → Bool
  | [] => needle.isEmpty
  | c :: s => listIsPrefixB needle (c :: s) || listIsSubstr needle s

/-- Python `'key' in data`: key membership for a dict, element equality for a
list (a string only ever equals a string in Python), substring test for a
string, and a `TypeError` otherwise. -/
def jsonContainsKey (j : Json) (k : String) : Except String Bool :=
  match j with
  | .obj fields => Except.ok (fields.any (fun f => f.1 = k))
  | .arr elems => Except.ok (elems.any (fun e =>
      match e with
      | .str s => s = k
      | _ => false))
  | .str s => Except.ok (listIsSubstr k.data s.data)
  | _ => Except.error "TypeError: argument not iterable"

/-- Python `data['key']` with a string key. -/
def jsonGetItem (j : Json) (k : String) : Except String Json :=
  match j with
  | .obj fields =>
    match alookup fields k with
    | some v => Except.ok v
    | none => Except.error "KeyError"
  | .str _ => Except.error "TypeError: string indices must be integers"
  | .arr _ => Except.error "TypeError: list indices must be integers"
  | _ => Except.error "TypeError: not subscriptable"

/-- Python iteration `for x in data`: list elements, string characters, or
dict keys; a `TypeError` otherwise. -/
def jsonIter (j : Json) : Except String (List Json) :=
  match j with
  | .arr elems => Except.ok elems
  | .str s => Except.ok (s.data.map (fun c => Json.str ⟨[c]⟩))
  | .obj fields => Except.ok (fields.map (fun f => Json.str f.1))
  | _ => Except.error "TypeError: not iterable"

/-- Python `data.items()`: dict only. -/
def jsonItems (j : Json) : Except String (List (String × Json)) :=
  match j with
  | .obj fields => Except.ok fields
  | _ => Except.error "AttributeError: no attribute items"

/-- Python `int(x)` on a JSON value. -/
def pyIntOfJson (j : Json) : Except String Int :=
  match j with
  | .num n => Except.ok n
  | .bool b => Except.ok (if b then 1 else 0)
  | .str s => pyInt s.data
  | _ => Except.error "TypeError: int() argument"

/-- `clean_bible_text(x)` applied to a JSON value: `unicodedata.normalize`
raises a `TypeError` unless `x` is a string. -/
def cleanBibleJson (j : Json) : Except String String :=
  match j with
  | .str s => Except.ok (clean_bible_textS s)
  | _ => Except.error "TypeError: normalize() argument"

/-- The corpus the JSON parser builds: in the `books` branch the book key is
`book['name']`, an arbitrary JSON value; in the bare-mapping branch it is
the dict key, stored as `Json.str`. -/
abbrev JCorpus := List (Json × BookData)

/-- Equality of hashable Python values as dict keys (Python's `True == 1`
cross-type numeric equality included); lists and dicts are not hashable and
never reach a dict-key comparison. -/
def jsonKeyEqb : Json → Json → Bool
  | .null, .null => true
  | .bool a, .bool b => a == b
  | .bool a, .num n => (if a then (1 : Int) else 0) == n
  | .num n, .bool a => n == (if a then (1 : Int) else 0)
  | .num a, .num b => a == b
  | .str a, .str b => a == b
  | _, _ => false

def assocSetJ : JCorpus → Json → BookData → JCorpus
  | [], k, v => [(k, v)]
  | (k0, v0) :: r, k, v =>
    if jsonKeyEqb k0 k then (k, v) :: r else (k0, v0) :: assocSetJ r k v

/-- Python `bible_data[book_name] = book_data`: an unhashable key (a JSON
list or object) raises a `TypeError`. -/
def jsonSetItem (m : JCorpus) (k : Json) (v : BookData) :
    Except String JCorpus :=
  match k with
  | .arr _ => Except.error "TypeError: unhashable"
  | .obj _ => Except.error "TypeError: unhashable"
  | _ => Except.ok (assocSetJ m k v)

/-- The verse loop of the `books` branch (lines 154-157). -/
def jsonVersesA (cd : VerseMap) : List Json → Except String VerseMap
  | [] => Except.ok cd
  | v :: r =>
    match jsonGetItem v "number" with
    | Except.error e => Except.error e
    | Except.ok jn =>
      match pyIntOfJson jn with
      | Except.error e => Except.error e
      | Except.ok n =>
        match jsonGetItem v "text" with
        | Except.error e => Except.error e
        | Except.ok jt =>
          match cleanBibleJson jt with
          | Except.error e => Except.error e
          | Except.ok txt => jsonVersesA (assocSet cd n txt) r

/-- The chapter loop of the `books` branch (lines 150-159). -/
def jsonChaptersA (bd : BookData) : List Json → Except String BookData
  | [] => Except.ok bd
  | c :: r =>
    match jsonGetItem c "number" with
    | Except.error e => Except.error e
    | Except.ok jn =>
      match pyIntOfJson jn with
      | Except.error e => Except.error e
      | Except.ok n =>
        match jsonGetItem c "verses" with
        | Except.error e => Except.error e
        | Except.ok jverses =>
          match jsonIter jverses with
          | Except.error e => Except.error e
          | Except.ok vs =>
            match jsonVersesA [] vs with
            | Except.error e => Except.error e
            | Except.ok cd => jsonChaptersA (assocSet bd n cd) r

/-- The book loop of the `books` branch (lines 146-161). -/
def jsonBooksA (acc : JCorpus) : List Json → Except String JCorpus
  | [] => Except.ok acc
  | b :: r =>
    match jsonGetItem b "name" with
    | Except.error e => Except.error e
    | Except.ok name =>
      match jsonGetItem b "chapters" with
      | Except.error e => Except.error e
      | Except.ok jchaps =>
        match jsonIter jchaps with
        | Except.error e => Except.error e
        | Except.ok chaps =>
          match jsonChaptersA [] chaps with
          | Except.error e => Except.error e
          | Except.ok bd =>
            match jsonSetItem acc name bd with
            | Except.error e => Except.error e
            | Except.ok acc1 => jsonBooksA acc1 r

/-- The verse loop of the bare-mapping branch (lines 171-174). -/
def jsonVersesB (cd : VerseMap) : List (String × Json) → Except String VerseMap
  | [] => Except.ok cd
  | (k, jv) :: r =>
    match pyInt k.data with
    | Except.error e => Except.error e
    | Except.ok n =>
      match cleanBibleJson jv with
      | Except.error e => Except.error e
      | Except.ok txt => jsonVersesB (assocSet cd n txt) r

/-- The chapter loop of the bare-mapping branch (lines 167-176). -/
def jsonChaptersB (bd : BookData) : List (String × Json) → Except String BookData
  | [] => Except.ok bd
  | (k, jverses) :: r =>
    match pyInt k.data with
    | Except.error e => Except.error e
    | Except.ok n =>
      match jsonItems jverses with
      | Except.error e => Except.error e
      | Except.ok vs =>
        match jsonVersesB [] vs with
        | Except.error e => Except.error e
        | Except.ok cd => jsonChaptersB (assocSet bd n cd) r

/-- The book loop of the bare-mapping branch (lines 164-178). -/
def jsonBooksB (acc : JCorpus) : List (String × Json) → Except String JCorpus
  | [] => Except.ok acc
  | (name, jchaps) :: r =>
    match jsonItems jchaps with
    | Except.error e => Except.error e
    | Except.ok chaps =>
      match jsonChaptersB [] chaps with
      | Except.error e => Except.error e
      | Except.ok bd => jsonBooksB (assocSetJ acc (Json.str name) bd) r

/-- `_process_json_bible` (lines 137-184), applied to the result of
`json.loads(content)`: the argument `none` models a `json.JSONDecodeError`
(malformed JSON), the only exception the function catches — it logs and
returns an empty corpus; every other raised exception propagates.  Shape
auto-detection is `'books' in data` (line 144), itself a `TypeError` on
non-container values. -/
def processJsonBible (decoded : Option Json) (translation : String) :
    Except String JCorpus :=
  match decoded with
  | none => Except.ok []
  | some data =>
    match jsonContainsKey data "books" with
    | Except.error e => Except.error e
    | Except.ok true =>
      match jsonGetItem data "books" with
      | Except.error e => Except.error e
      | Except.ok jbooks =>
        match jsonIter jbooks with
        | Except.error e => Except.error e
        | Except.ok books => jsonBooksA [] books
    | Except.ok false =>
      match jsonItems data with
      | Except.error e => Except.error e
      | Except.ok items => jsonBooksB [] items

def exceptIsError {α : Type} : Except String α → Bool
  | Except.error _ => true
  | Except.ok _ => false

/-! ## C4, C5, C6: error behaviour of the parsers and the alignment engine -/

theorem processXmlChapters_error {l : List ChapterElem}
    (h : ∃ ce ∈ l, ce.number = none) : ∀ bd : BookData,
    ∃ e, processXmlChapters bd l = Except.error e := by
  induction l with
  | nil => simp at h
  | cons ce r ih =>
    intro bd
    simp only [processXmlChapters]
    split
    · exact ⟨"TypeError", rfl⟩
    · rename_i ns hn
      have hr : ∃ x ∈ r, x.number = none := by
        obtain ⟨ce', hmem, hnum⟩ := h
        rcases List.mem_cons.mp hmem with rfl | hm
        · rw [hn] at hnum; cases hnum
        · exact ⟨ce', hm, hnum⟩
      split
      · exact ⟨_, rfl⟩
      · split
        · exact ⟨_, rfl⟩
        · exact ih hr _

theorem processXmlBooks_error {books : List BookElem}
    (h : ∃ be ∈ books, ∃ ce ∈ be.chapters, ce.number = none) :
    ∀ acc : XCorpus, ∃ e, processXmlBooks acc books = Except.error e := by
  induction books with
  | nil => simp at h
  | cons be r ih =>
    intro acc
    simp only [processXmlBooks]
    obtain ⟨be', hmem, hbad⟩ := h
    rcases List.mem_cons.mp hmem with rfl | hm
    · obtain ⟨e, he⟩ := processXmlChapters_error hbad []
      rw [he]
      exact ⟨e, rfl⟩
    · cases hc : processXmlChapters [] be.chapters with
      | error e => exact ⟨e, rfl⟩
      | ok bd => exact ih ⟨be', hm, hbad⟩ _

theorem processXmlCommentaryGo_error {elems : List EntryElem} {src : String}
    (h : ∃ el ∈ elems, el.content = none) :
    ∃ e, processXmlCommentaryGo src elems = Except.error e := by
  induction elems with
  | nil => simp at h
  | cons el r ih =>
    simp only [processXmlCommentaryGo]
    obtain ⟨el', hmem, hc⟩ := h
    rcases List.mem_cons.mp hmem with rfl | hm
    · have he : processXmlEntry src el' = Except.error "AttributeError" := by
        unfold processXmlEntry
        rw [hc]
      rw [he]
      exact ⟨"AttributeError", rfl⟩
    · cases hp : processXmlEntry src el with
      | error e => exact ⟨e, rfl⟩
      | ok en =>
        obtain ⟨e, he⟩ := ih ⟨el', hm, hc⟩
        rw [he]
        exact ⟨e, rfl⟩

def exC5Books : List BookElem :=
  [{ name := some "Genesis",
     chapters := [{ number := some "1",
                    verses := [{ number := some "1", text := "In the beginning" }] },
                  { number := none, verses := [] }] }]

def exC5Entries : List EntryElem :=
  [{ content := none, tradition := some "reformed" },
   { content := some "a sibling note" }]

/-- C5 (corrected), counterexample.  The claim says a scripture
book/chapter/verse element missing a numeric attribute is skipped while its
siblings are still parsed, and a commentary entry missing its `content`
sub-element is skipped while sibling entries are still returned.  The code
has no per-element handling at all: on a file whose first chapter element is
well-formed and whose second lacks its `number`, `int(None)` raises a
`TypeError` and the whole parse aborts (no corpus, the well-formed sibling
included, is returned), and a commentary entry without `content` raises an
`AttributeError` aborting the whole file even though a well-formed sibling
follows. -/
theorem C5_defect_not_contained_counterexample :
    processXmlBible exC5Books "KJV" = Except.error "TypeError"
    ∧ processXmlCommentary exC5Entries "src" = Except.error "AttributeError" :=
  ⟨rfl, rfl⟩

/-- C5 (corrected), amended claim.  In the markup parsers a per-element
defect is not contained to that element: whenever any chapter element of a
scripture file lacks its numeric `number` attribute the entire file's parse
raises (returns an error, losing all sibling elements), and whenever any
commentary entry lacks its `content` sub-element the entire commentary
file's parse raises. -/
theorem C5_amended_defect_aborts_whole_file :
    (∀ (books : List BookElem) (tr : String),
      (∃ be ∈ books, ∃ ce ∈ be.chapters, ce.number = none) →
        exceptIsError (processXmlBible books tr) = true)
    ∧ (∀ (elems : List EntryElem) (src : String),
      (∃ el ∈ elems, el.content = none) →
        exceptIsError (processXmlCommentary elems src) = true) := by
  constructor
  · intro books tr h
    obtain ⟨e, he⟩ := processXmlBooks_error h []
    unfold processXmlBible
    rw [he]
    rfl
  · intro elems src h
    obtain ⟨e, he⟩ := @processXmlCommentaryGo_error elems src h
    unfold processXmlCommentary
    rw [he]
    rfl

/-- Witness for the amended C5 at the concrete defective files. -/
theorem C5_amended_defect_aborts_whole_file_witness :
    exceptIsError (processXmlBible exC5Books "KJV") = true
    ∧ exceptIsError (processXmlCommentary exC5Entries "src") = true :=
  ⟨C5_amended_defect_aborts_whole_file.1 exC5Books "KJV" (by decide),
   C5_amended_defect_aborts_whole_file.2 exC5Entries "src" (by decide)⟩

/-- C4 (corrected), counterexample.  The claim says every format-parser
entry point returns a best-effort, possibly empty, result for every input —
including arbitrarily shaped JSON — without propagating any exception.  But
`_process_json_bible` catches only `json.JSONDecodeError`: on the valid JSON
document `5` the shape test `'books' in data` raises an uncaught `TypeError`
that propagates to the caller. -/
theorem C4_json_shape_error_counterexample :
    processJsonBible (some (Json.num 5)) "KJV"
      = Except.error "TypeError: argument not iterable" := rfl

/-- C4 (corrected), amended claim.  The format parsers contain only the
error classes they anticipate: malformed JSON (a `json.JSONDecodeError`)
yields an empty corpus and no exception, but valid JSON of an unexpected
shape propagates an uncaught exception — every top-level JSON number (and
likewise `null`) makes `_process_json_bible` raise a `TypeError` at the
`'books' in data` shape test.  (The markup parsers' uncaught per-element
exceptions are settled under C5.) -/
theorem C4_amended_parser_error_containment :
    (∀ t : String, processJsonBible none t = Except.ok [])
    ∧ (∀ (n : Int) (t : String),
        processJsonBible (some (Json.num n)) t
          = Except.error "TypeError: argument not iterable")
    ∧ (∀ t : String,
        processJsonBible (some Json.null) t
          = Except.error "TypeError: argument not iterable") :=
  ⟨fun _ => rfl, fun _ _ => rfl, fun _ => rfl⟩

def exC6Elem : EntryElem :=
  { content := some "Commentary on chapter three",
    ref := some { chapter := some "3" } }

def exC6Entry : Entry :=
  { source := "mh",
    content := clean_commentary_textS "Commentary on chapter three",
    book := some none, chapter := some (some 3), verse_start := some none,
    verse_end := some none, tradition := some "unknown" }

def exC6Bibles : Bibles := [("KJV", [("John", [(3, [(16, "v16")])])])]

/-- C6 (code bug).  The claim — matching the spec's invariant and testable
property — says a commentary record whose reference is not fully resolvable
(here: chapter 3 with no book and no verse_start, as the XML parser produces
for `reference chapter="3"`) is retained in the parser's record list but
excluded from alignment, which still completes without error.  The record is
indeed retained (first conjunct), but the alignment engine checks only key
presence (`'verse_start' in entry`), finds the keys with `None` values, and
`range(verse_start, verse_end + 1)` raises an uncaught `TypeError`, aborting
`create_verse_aligned_dataset` entirely instead of ignoring the record. -/
theorem C6_unresolvable_reference_crashes_alignment :
    processXmlCommentary [exC6Elem] "mh" = Except.ok [exC6Entry]
    ∧ create_verse_aligned_dataset exC6Bibles [("mh", [exC6Entry])]
        = Except.error "TypeError" :=
  ⟨rfl, rfl⟩

/-! ## The plain-text scripture parser (`_process_txt_bible`, lines 186-212)

`finditer` over
`([1-3]?\s*[A-Za-z]+)\s+(\d+):(\d+)\s+(.*?)(?=(?:[1-3]?\s*[A-Za-z]+\s+\d+:\d+)|$)`
with `re.DOTALL`.  The head of the pattern is deterministic: the optional
`[1-3]` digit, the greedy whitespace/letter/digit runs and the literal `:`
use pairwise disjoint character classes, so no backtracking alternative ever
succeeds where the maximal-munch parse fails (giving a character back always
re-offers a character of the wrong class).  The non-greedy body takes the
shortest prefix after which the zero-width lookahead — another reference
head, or `$` (end of text, or just before a final newline) — succeeds;
`finditer` then resumes scanning at that lookahead position. -/

def isDigit13 (c : Char) : Bool := c = '1' || c = '2' || c = '3'

/-- The part of the reference head after the optional `[1-3]` digit `d`. -/
def matchRefTail (d : List Char) (s1 : List Char) :
    Option (List Char × List Char × List Char × List Char) :=
  match spanP isPySpace s1 with
  | (sp, s2) =>
    match spanP isAsciiLetter s2 with
    | ([], _) => none
    | (letters, s3) =>
      match spanP isPySpace s3 with
      | ([], _) => none
      | (_, s4) =>
        match spanP isAsciiDigit s4 with
        | ([], _) => none
        | (dig1, s5) =>
          match s5 with
          | ':' :: s6 =>
            match spanP isAsciiDigit s6 with
            | ([], _) => none
            | (dig2, s7) => some (d ++ sp ++ letters, dig1, dig2, s7)
          | _ => none

/-- Match `[1-3]?\s*[A-Za-z]+\s+(\d+):(\d+)` at the head of `s`: on success
return the group-1 text, the two digit groups and the rest. -/
def matchRefCore (s : List Char) :
    Option (List Char × List Char × List Char × List Char) :=
  match s with
  | c :: r =>
    if isDigit13 c then matchRefTail [c] r else matchRefTail [] s
  | [] => none

/-- `$` without `re.MULTILINE`: end of text, or just before a final newline. -/
def dollarAt : List Char → Bool
  | [] => true
  | [c] => c = '\n'
  | _ => false

/-- The lookahead `(?=(?:[1-3]?\s*[A-Za-z]+\s+\d+:\d+)|$)`. -/
def lookaheadOk (s : List Char) : Bool :=
  (matchRefCore s).isSome || dollarAt s

/-- The non-greedy `(.*?)`: the shortest body (any characters, `re.DOTALL`)
after which the lookahead holds; returns the body and the lookahead
position.  Total, since the lookahead holds at the end of the text. -/
def findBody : List Char → List Char × List Char
  | [] => ([], [])
  | c :: r =>
    if lookaheadOk (c :: r) then ([], c :: r)
    else
      match findBody r with
      | (b, rest) => (c :: b, rest)

structure TxtMatch where
  book : List Char
  chapter : List Char
  verse : List Char
  body : List Char
deriving DecidableEq, Repr

/-- The whole pattern at the head of `s`: the reference head, the mandatory
whitespace after it, then the non-greedy body up to the lookahead. -/
def tryMatchAt (s : List Char) : Option (TxtMatch × List Char) :=
  match matchRefCore s with
  | none => none
  | some (g1, dig1, dig2, s7) =>
    if (spanP isPySpace s7).1.isEmpty then none
    else
      match findBody (spanP isPySpace s7).2 with
      | (body, rest) => some (⟨g1, dig1, dig2, body⟩, rest)

/-- `finditer`: try the pattern at each position, left to right; a match is
emitted and scanning resumes at its (lookahead) end, a failure advances one
character.  The fuel only makes the recursion structural: every step
advances at least one character (a match consumes at least six), so
`txtMatches` supplies fuel equal to the text length, which is never
exhausted. -/
def txtScan : Nat → List Char → List TxtMatch
  | 0, _ => []
  | Nat.succ n, s =>
    match tryMatchAt s with
    | some (m, rest) => m :: txtScan n rest
    | none =>
      match s with
      | [] => []
      | _ :: r => txtScan n r

def txtMatches (content : List Char) : List TxtMatch :=
  txtScan content.length content

def digitsToInt (ds : List Char) : Int := (digitsToNat ds 0 : Int)

/-- Net effect of lines 204-210: ensure the nested dicts exist, then
`bible_data[book][chapter][verse] = text` (dict update preserves key
position; a fresh key is appended). -/
def assocSet3 (bd : Corpus) (b : String) (ch v : Int) (t : String) : Corpus :=
  assocSet bd b
    (assocSet ((alookup bd b).getD []) ch
      (assocSet ((alookup ((alookup bd b).getD []) ch).getD []) v t))

/-- `_process_txt_bible` (lines 186-212): for each match, in order, store
`clean_bible_text(body)` under `(group(1).strip(), int(group(2)),
int(group(3)))`; the `translation` argument is unused by the source
function body. -/
def processTxtBible (content : String) (translation : String) : Corpus :=
  (txtMatches content.data).foldl (fun bd m =>
    assocSet3 bd (String.mk (pyStrip m.book)) (digitsToInt m.chapter)
      (digitsToInt m.verse) (clean_bible_textS (String.mk m.body))) []

/-- Nested lookup without defaults: `none` iff the corpus lacks the key. -/
def corpusFind (c : Corpus) (b : String) (ch v : Int) : Option String :=
  alookup ((alookup ((alookup c b).getD []) ch).getD []) v

/-- The text of the last match in `ms` whose key is `(b, ch, v)` (cleaned),
or `none` when no match has that key. -/
def lastMatchText (ms : List TxtMatch) (b : String) (ch v : Int) :
    Option String :=
  ms.foldl (fun acc m =>
    if String.mk (pyStrip m.book) = b ∧ digitsToInt m.chapter = ch
        ∧ digitsToInt m.verse = v
    then some (clean_bible_textS (String.mk m.body)) else acc) none

theorem alookup_assocSet {α β : Type} [DecidableEq α] (m : List (α × β))
    (k k' : α) (v : β) :
    alookup (assocSet m k v) k' = if k = k' then some v else alookup m k' := by
  induction m with
  | nil => simp [assocSet, alookup]
  | cons p r ih =>
    obtain ⟨k0, v0⟩ := p
    by_cases h : k0 = k
    · subst h
      simp only [assocSet, if_pos rfl]
      by_cases h2 : k0 = k'
      · simp [alookup, h2]
      · simp [alookup, h2]
    · simp only [assocSet, if_neg h]
      by_cases h2 : k0 = k'
      · subst h2
        have hk : ¬ k = k0 := fun hc => h hc.symm
        simp [alookup, hk]
      · simp [alookup, h2, ih]

theorem corpusFind_assocSet3 (bd : Corpus) (b b' : String) (ch ch' v v' : Int)
    (t : String) :
    corpusFind (assocSet3 bd b ch v t) b' ch' v'
      = if b = b' ∧ ch = ch' ∧ v = v' then some t
        else corpusFind bd b' ch' v' := by
  unfold corpusFind assocSet3
  rw [alookup_assocSet]
  by_cases hb : b = b'
  · rw [if_pos hb]
    simp only [Option.getD_some]
    rw [alookup_assocSet]
    by_cases hc : ch = ch'
    · rw [if_pos hc]
      simp only [Option.getD_some]
      rw [alookup_assocSet]
      by_cases hv : v = v'
      · rw [if_pos hv, if_pos ⟨hb, hc, hv⟩]
      · rw [if_neg hv, if_neg (by rintro ⟨_, _, h3⟩; exact hv h3), hb, hc]
    · rw [if_neg hc, if_neg (by rintro ⟨_, h2, _⟩; exact hc h2), hb]
  · rw [if_neg hb, if_neg (by rintro ⟨h1, _, _⟩; exact hb h1)]

theorem corpusFind_processTxt (ms : List TxtMatch) : ∀ (bd : Corpus)
    (b : String) (ch v : Int),
    corpusFind (ms.foldl (fun bd m => assocSet3 bd (String.mk (pyStrip m.book))
        (digitsToInt m.chapter) (digitsToInt m.verse)
        (clean_bible_textS (String.mk m.body))) bd) b ch v
      = ms.foldl (fun acc m =>
          if String.mk (pyStrip m.book) = b ∧ digitsToInt m.chapter = ch
              ∧ digitsToInt m.verse = v
          then some (clean_bible_textS (String.mk m.body)) else acc)
          (corpusFind bd b ch v) := by
  induction ms with
  | nil => intro bd b ch v; rfl
  | cons m rest ih =>
    intro bd b ch v
    simp only [List.foldl_cons]
    rw [ih, corpusFind_assocSet3]

/-- C8 (confirmed).  The plain-text parser stores, for every key, the body
of the last match with that key — later occurrences overwrite earlier ones.
For every file content and every `(book, chapter, verse)`, the stored value
(`none` when absent) is `lastMatchText`: the cleaned body of the last match
whose stripped group 1 and numeric groups equal the key.  The second
conjunct instantiates the spec's duplicate-key example: a file with two
`John 3:16` occurrences yields the second body as the stored value. -/
theorem C8_txt_duplicate_key_last_write_wins :
    (∀ (content translation b : String) (ch v : Int),
      corpusFind (processTxtBible content translation) b ch v
        = lastMatchText (txtMatches content.data) b ch v)
    ∧ corpusFind (processTxtBible
        "John 3:16 For God so loved the world John 3:16 Second body here" "KJV")
        "John" 3 16
      = some (clean_bible_textS "Second body here") := by
  constructor
  · intro content translation b ch v
    unfold processTxtBible lastMatchText
    rw [corpusFind_processTxt]
    rfl
  · decide

/-! ## C7: protected-term re-assertion in `clean_commentary_text`

The re-assertion substitutions only recase letters, so positions are stable:
the claims are stated through `charAt`, with the convention that positions
beyond the end read the (non-word) null character. -/

def charAt (s : List Char) (i : Nat) : Char := s.getD i '\x00'

theorem char_eq_of_toNat {a b : Char} (h : a.toNat = b.toNat) : a = b :=
  Char.eq_of_val_eq (UInt32.ext h)

theorem caseEqChar_refl (a : Char) : caseEqChar a a = true := by
  simp [caseEqChar]

theorem caseEqChar_prop {a b : Char} :
    caseEqChar a b = true ↔
      (a = b ∨ (isAsciiLetter a = true ∧ isAsciiLetter b = true ∧
        (a.toNat + 32 = b.toNat ∨ b.toNat + 32 = a.toNat))) := by
  simp only [caseEqChar, Bool.or_eq_true, Bool.and_eq_true, decide_eq_true_eq]
  tauto

theorem caseEqChar_symm {a b : Char} (h : caseEqChar a b = true) :
    caseEqChar b a = true := by
  rw [caseEqChar_prop] at h ⊢
  rcases h with rfl | ⟨h1, h2, h3⟩
  · exact Or.inl rfl
  · exact Or.inr ⟨h2, h1, h3.symm⟩

theorem isAsciiLetter_prop {a : Char} :
    isAsciiLetter a = true ↔
      ((97 ≤ a.toNat ∧ a.toNat ≤ 122) ∨ (65 ≤ a.toNat ∧ a.toNat ≤ 90)) := by
  simp [isAsciiLetter, Bool.or_eq_true, Bool.and_eq_true, decide_eq_true_eq]

theorem caseEqChar_trans {a b c : Char} (h1 : caseEqChar a b = true)
    (h2 : caseEqChar b c = true) : caseEqChar a c = true := by
  rw [caseEqChar_prop] at h1 h2 ⊢
  rcases h1 with rfl | ⟨ha, hb, hab⟩
  · exact h2
  · rcases h2 with rfl | ⟨hb', hc, hbc⟩
    · exact Or.inr ⟨ha, hb, hab⟩
    · rw [isAsciiLetter_prop] at ha hb hc
      by_cases hac : a.toNat = c.toNat
      · exact Or.inl (char_eq_of_toNat hac)
      · refine Or.inr ⟨isAsciiLetter_prop.mpr ha, isAsciiLetter_prop.mpr hc, ?_⟩
        omega

theorem isWordChar_of_caseEq {a b : Char} (h : caseEqChar a b = true) :
    isWordChar a = isWordChar b := by
  rw [caseEqChar_prop] at h
  rcases h with rfl | ⟨h1, h2, _⟩
  · rfl
  · simp [isWordChar, h1, h2]

/-! Positional reading lemmas. -/

theorem charAt_cons_zero (c : Char) (s : List Char) : charAt (c :: s) 0 = c := rfl

theorem charAt_cons_succ (c : Char) (s : List Char) (i : Nat) :
    charAt (c :: s) (i + 1) = charAt s i := rfl

theorem charAt_append_left {a : List Char} (b : List Char) {i : Nat}
    (h : i < a.length) : charAt (a ++ b) i = charAt a i :=
  List.getD_append a b _ i h

theorem charAt_append_right {a : List Char} (b : List Char) {i : Nat}
    (h : a.length ≤ i) : charAt (a ++ b) i = charAt b (i - a.length) :=
  List.getD_append_right a b _ i h

theorem charAt_eq_default {s : List Char} {i : Nat} (h : s.length ≤ i) :
    charAt s i = '\x00' := by
  unfold charAt
  rw [List.getD_eq_default]
  exact h

theorem isWordChar_default : isWordChar '\x00' = false := by decide

/-- Pointwise-recased relation: same length, corresponding characters
case-insensitively equal. -/
def Recased (s s' : List Char) : Prop :=
  s'.length = s.length ∧ ∀ i, caseEqChar (charAt s' i) (charAt s i) = true

theorem Recased.refl (s : List Char) : Recased s s :=
  ⟨rfl, fun i => caseEqChar_refl _⟩

theorem Recased.trans {s1 s2 s3 : List Char} (h1 : Recased s1 s2)
    (h2 : Recased s2 s3) : Recased s1 s3 :=
  ⟨h2.1.trans h1.1, fun i => caseEqChar_trans (h2.2 i) (h1.2 i)⟩

/-! Extended facts about `casingMatch`. -/

theorem casingMatch_pointwise : ∀ {t s m r : List Char},
    casingMatch t s = some (m, r) →
    m.length = t.length ∧ s = m ++ r
      ∧ ∀ i, i < t.length → caseEqChar (charAt t i) (charAt m i) = true := by
  intro t
  induction t with
  | nil =>
    intro s m r h
    simp [casingMatch] at h
    refine ⟨by simp [h.1], by simp [h.1, h.2], ?_⟩
    intro i hi
    simp at hi
  | cons p ps ih =>
    intro s m r h
    cases s with
    | nil => simp [casingMatch] at h
    | cons c cs =>
      simp only [casingMatch] at h
      split at h
      · split at h
        · rename_i m' r' heq
          cases h
          obtain ⟨h1, h2, h3⟩ := ih heq
          refine ⟨by simp [h1], by simp [h2], ?_⟩
          intro i hi
          cases i with
          | zero =>
            rename_i hce _
            simpa [charAt_cons_zero] using hce
          | succ j =>
            simp only [charAt_cons_succ]
            exact h3 j (by simpa using hi)
        · cases h
      · cases h

/-- Converse: a pointwise case-match of the right length makes `casingMatch`
succeed with the prefix. -/
theorem casingMatch_of_pointwise : ∀ (t s : List Char),
    t.length ≤ s.length →
    (∀ i, i < t.length → caseEqChar (charAt s i) (charAt t i) = true) →
    casingMatch t s = some (s.take t.length, s.drop t.length) := by
  intro t
  induction t with
  | nil => intro s _ _; simp [casingMatch]
  | cons p ps ih =>
    intro s hlen hpt
    cases s with
    | nil => simp at hlen
    | cons c cs =>
      have h0 := hpt 0 (by simp)
      simp only [charAt_cons_zero] at h0
      simp only [casingMatch, caseEqChar_symm h0, if_pos]
      rw [ih cs (by simpa using hlen) (fun i hi => by
        have := hpt (i + 1) (by simpa using hi)
        simpa [charAt_cons_succ] using this)]
      simp

/-- `subF` with enough fuel is a pointwise recasing of its input. -/
theorem subF_recased (t : List Char) : ∀ (n : Nat) (prev : Option Char)
    (s : List Char), s.length ≤ n → Recased s (subF t n prev s) := by
  intro n
  induction n with
  | zero =>
    intro prev s h
    have : s = [] := List.length_eq_zero.mp (Nat.le_zero.mp h)
    subst this
    exact Recased.refl []
  | succ n ih =>
    intro prev s hlen
    cases s with
    | nil => exact Recased.refl []
    | cons c s' =>
      simp only [subF]
      split
      · rename_i m rest hsome
        split
        · rename_i hba
          have hcm : casingMatch t (c :: s') = some (m, rest) := by
            by_cases hbb : boundaryBefore prev = true
            · rwa [if_pos hbb] at hsome
            · rw [if_neg hbb] at hsome; cases hsome
          obtain ⟨hm1, hm2, hm3⟩ := casingMatch_pointwise hcm
          simp only [Bool.and_eq_true, Bool.not_eq_true'] at hba
          have hmne : m ≠ [] := by
            intro hc
            rw [hc] at hba
            simp [List.isEmpty] at hba
          have hrest : rest.length ≤ n := by
            have := congrArg List.length hm2
            simp only [List.length_cons, List.length_append] at this
            have hm0 : 0 < m.length := List.length_pos.mpr hmne
            simp only [List.length_cons] at hlen
            omega
          obtain ⟨hl, hp⟩ := ih (some (m.getLast?.getD c)) rest hrest
          constructor
          · rw [hm2]
            simp only [List.length_append, hl, hm1]
          · intro i
            rw [hm2]
            by_cases hi : i < t.length
            · rw [charAt_append_left _ hi,
                charAt_append_left _ (by omega : i < m.length)]
              exact hm3 i hi
            · have hi' : t.length ≤ i := by omega
              rw [charAt_append_right _ hi',
                charAt_append_right _ (by omega : m.length ≤ i), hm1]
              exact hp (i - t.length)
        · obtain ⟨hl, hp⟩ := ih (some c) s' (by simpa using Nat.le_of_succ_le_succ hlen)
          refine ⟨by simp [hl], ?_⟩
          intro i
          cases i with
          | zero => exact caseEqChar_refl _
          | succ j =>
            simp only [charAt_cons_succ]
            exact hp j
      · obtain ⟨hl, hp⟩ := ih (some c) s' (by simpa using Nat.le_of_succ_le_succ hlen)
        refine ⟨by simp [hl], ?_⟩
        intro i
        cases i with
        | zero => exact caseEqChar_refl _
        | succ j =>
          simp only [charAt_cons_succ]
          exact hp j

/-- A whole-word, case-insensitive occurrence of `t` at position `p` of `s`:
the window fits, matches `t` case-insensitively, and both neighbours are
non-word (a position past the end reads the non-word null character; the
left context of position `0` is `prev`, the character just left of `s` in
the scanned text, or `none` at the very start). -/
def wwAt (t s : List Char) (p : Nat) (prev : Option Char) : Prop :=
  p + t.length ≤ s.length
  ∧ (∀ i, i < t.length → caseEqChar (charAt s (p + i)) (charAt t i) = true)
  ∧ (if p = 0 then boundaryBefore prev = true
     else isWordChar (charAt s (p - 1)) = false)
  ∧ isWordChar (charAt s (p + t.length)) = false

theorem wwAt_cons_succ {t : List Char} {c : Char} {s : List Char} {p : Nat}
    {prev : Option Char} :
    wwAt t (c :: s) (p + 1) prev ↔ wwAt t s p (some c) := by
  unfold wwAt
  constructor
  · rintro ⟨h1, h2, h3, h4⟩
    refine ⟨by simp only [List.length_cons] at h1; omega, ?_, ?_, ?_⟩
    · intro i hi
      have h := h2 i hi
      rwa [show p + 1 + i = (p + i) + 1 by omega, charAt_cons_succ] at h
    · rw [if_neg (by omega : ¬ p + 1 = 0)] at h3
      by_cases hp : p = 0
      · subst hp
        rw [if_pos rfl]
        simp only [Nat.add_sub_cancel, charAt_cons_zero] at h3
        simp [boundaryBefore, h3]
      · rw [if_neg hp]
        rwa [show p + 1 - 1 = (p - 1) + 1 by omega, charAt_cons_succ] at h3
    · rwa [show p + 1 + t.length = (p + t.length) + 1 by omega,
        charAt_cons_succ] at h4
  · rintro ⟨h1, h2, h3, h4⟩
    refine ⟨by simp only [List.length_cons]; omega, ?_, ?_, ?_⟩
    · intro i hi
      rw [show p + 1 + i = (p + i) + 1 by omega, charAt_cons_succ]
      exact h2 i hi
    · rw [if_neg (by omega : ¬ p + 1 = 0)]
      by_cases hp : p = 0
      · subst hp
        rw [if_pos rfl] at h3
        simp only [boundaryBefore, Bool.not_eq_true'] at h3
        simpa [charAt_cons_zero] using h3
      · rw [if_neg hp] at h3
        rwa [show p + 1 - 1 = (p - 1) + 1 by omega, charAt_cons_succ]
    · rw [show p + 1 + t.length = (p + t.length) + 1 by omega, charAt_cons_succ]
      exact h4

theorem getLastD_eq_charAt : ∀ {m : List Char}, m ≠ [] → ∀ d : Char,
    m.getLast?.getD d = charAt m (m.length - 1) := by
  intro m
  induction m with
  | nil => intro h; cases h rfl
  | cons c r ih =>
    intro _ d
    cases r with
    | nil => rfl
    | cons c2 r2 =>
      rw [List.getLast?_cons_cons, ih (by simp) d,
        show (c :: c2 :: r2).length - 1 = ((c2 :: r2).length - 1) + 1 by
          simp only [List.length_cons]; omega,
        charAt_cons_succ]

theorem wwAt_append_shift {t a rest : List Char} (hane : a ≠ []) {p : Nat}
    {prev : Option Char} :
    wwAt t (a ++ rest) (p + a.length) prev ↔
      wwAt t rest p (some (charAt a (a.length - 1))) := by
  have halen : 0 < a.length := List.length_pos.mpr hane
  unfold wwAt
  constructor
  · rintro ⟨h1, h2, h3, h4⟩
    refine ⟨?_, ?_, ?_, ?_⟩
    · simp only [List.length_append] at h1; omega
    · intro i hi
      have h := h2 i hi
      rwa [show p + a.length + i = a.length + (p + i) by omega,
        charAt_append_right _ (by omega), Nat.add_sub_cancel_left] at h
    · rw [if_neg (by omega : ¬ p + a.length = 0)] at h3
      by_cases hp : p = 0
      · subst hp
        rw [if_pos rfl]
        rw [show 0 + a.length - 1 = a.length - 1 by omega,
          charAt_append_left _ (by omega)] at h3
        simp [boundaryBefore, h3]
      · rw [if_neg hp]
        rwa [show p + a.length - 1 = a.length + (p - 1) by omega,
          charAt_append_right _ (by omega), Nat.add_sub_cancel_left] at h3
    · rwa [show p + a.length + t.length = a.length + (p + t.length) by omega,
        charAt_append_right _ (by omega), Nat.add_sub_cancel_left] at h4
  · rintro ⟨h1, h2, h3, h4⟩
    refine ⟨?_, ?_, ?_, ?_⟩
    · simp only [List.length_append]; omega
    · intro i hi
      rw [show p + a.length + i = a.length + (p + i) by omega,
        charAt_append_right _ (by omega), Nat.add_sub_cancel_left]
      exact h2 i hi
    · rw [if_neg (by omega : ¬ p + a.length = 0)]
      by_cases hp : p = 0
      · subst hp
        rw [if_pos rfl] at h3
        simp only [boundaryBefore, Bool.not_eq_true'] at h3
        rwa [show 0 + a.length - 1 = a.length - 1 by omega,
          charAt_append_left _ (by omega)]
      · rw [if_neg hp] at h3
        rwa [show p + a.length - 1 = a.length + (p - 1) by omega,
          charAt_append_right _ (by omega), Nat.add_sub_cancel_left]
    · rwa [show p + a.length + t.length = a.length + (p + t.length) by omega,
        charAt_append_right _ (by omega), Nat.add_sub_cancel_left]

/-- No whole-word casing occurrence of `t` can start strictly inside a
casing match of `t`: at every shift `0 < d < |t|`, either the character
before the shifted start is a word character (so no `\b` there), or the
overlapping parts mismatch case-insensitively. -/
def selfOverlapFree (t : List Char) : Bool :=
  (List.range t.length).all (fun d =>
    decide (d = 0) || isWordChar (charAt t (d - 1)) ||
    !((List.range (t.length - d)).all (fun j =>
        caseEqChar (charAt t (d + j)) (charAt t j))))

theorem selfOverlapFree_spec {t : List Char} (h : selfOverlapFree t = true)
    {d : Nat} (hd0 : 0 < d) (hdl : d < t.length)
    (hw : isWordChar (charAt t (d - 1)) = false)
    (hall : ∀ j, j < t.length - d →
      caseEqChar (charAt t (d + j)) (charAt t j) = true) : False := by
  unfold selfOverlapFree at h
  rw [List.all_eq_true] at h
  have hd := h d (by rw [List.mem_range]; exact hdl)
  have hT : ((List.range (t.length - d)).all (fun j =>
      caseEqChar (charAt t (d + j)) (charAt t j))) = true := by
    rw [List.all_eq_true]
    intro j hj
    exact hall j (List.mem_range.mp hj)
  rw [hT, hw] at hd
  simp at hd
  omega

/-- One pass for `t` rewrites every whole-word casing occurrence of `t` into
the canonical `t`, in place. -/
theorem subF_canonicalizes (t : List Char) (ht0 : t ≠ [])
    (hsf : selfOverlapFree t = true) :
    ∀ (n : Nat) (s : List Char) (prev : Option Char) (p : Nat),
      s.length ≤ n → wwAt t s p prev →
      ∀ i, i < t.length → charAt (subF t n prev s) (p + i) = charAt t i := by
  have htpos : 0 < t.length := List.length_pos.mpr ht0
  intro n
  induction n with
  | zero =>
    intro s prev p hlen hww i hi
    have h1 := hww.1
    have hs : s.length = 0 := Nat.le_zero.mp hlen
    omega
  | succ n ih =>
    intro s prev p hlen hww i hi
    cases s with
    | nil =>
      have h1 := hww.1
      simp only [List.length_nil] at h1
      omega
    | cons c s' =>
      obtain ⟨hw1, hw2, hw3, hw4⟩ := hww
      simp only [subF]
      split
      · rename_i m rest hsome
        have hbb : boundaryBefore prev = true := by
          by_cases hb : boundaryBefore prev = true
          · exact hb
          · rw [if_neg hb] at hsome; cases hsome
        rw [if_pos hbb] at hsome
        obtain ⟨hm1, hm2, hm3⟩ := casingMatch_pointwise hsome
        have hmne : m ≠ [] := by
          intro hc
          rw [hc] at hm1
          simp at hm1
          omega
        have hml : 0 < m.length := List.length_pos.mpr hmne
        split
        · rcases Nat.lt_or_ge p t.length with hp | hp
          · by_cases hp0 : p = 0
            · subst hp0
              simp only [Nat.zero_add]
              rw [charAt_append_left _ hi]
            · exfalso
              have hd0 : 0 < p := Nat.pos_of_ne_zero hp0
              have hsm : ∀ j, j < t.length → charAt (c :: s') j = charAt m j := by
                intro j hj
                rw [hm2, charAt_append_left _ (by omega)]
              have hw3' : isWordChar (charAt (c :: s') (p - 1)) = false := by
                rw [if_neg hp0] at hw3
                exact hw3
              have ht1 : isWordChar (charAt t (p - 1)) = false := by
                have hA : caseEqChar (charAt t (p - 1)) (charAt m (p - 1)) = true :=
                  hm3 (p - 1) (by omega)
                rw [isWordChar_of_caseEq hA, ← hsm (p - 1) (by omega)]
                exact hw3'
              refine selfOverlapFree_spec hsf hd0 hp ht1 ?_
              intro j hj
              have h1' : caseEqChar (charAt t (p + j)) (charAt m (p + j)) = true :=
                hm3 (p + j) (by omega)
              have h2' : caseEqChar (charAt (c :: s') (p + j)) (charAt t j) = true :=
                hw2 j (by omega)
              rw [← hsm (p + j) (by omega)] at h1'
              exact caseEqChar_trans h1' h2'
          · have hrlen : rest.length ≤ n := by
              have hlen2 := congrArg List.length hm2
              simp only [List.length_cons, List.length_append] at hlen2
              simp only [List.length_cons] at hlen
              omega
            have hww0 : wwAt t (m ++ rest) ((p - m.length) + m.length) prev := by
              rw [show (p - m.length) + m.length = p by omega, ← hm2]
              exact ⟨hw1, hw2, hw3, hw4⟩
            have hww' := (wwAt_append_shift hmne).mp hww0
            have hgl : m.getLast?.getD c = charAt m (m.length - 1) :=
              getLastD_eq_charAt hmne c
            have hres := ih rest (some (m.getLast?.getD c)) (p - m.length) hrlen
              (by rw [hgl]; exact hww') i hi
            rw [charAt_append_right _ (by omega : t.length ≤ p + i),
              show p + i - t.length = (p - m.length) + i by omega]
            exact hres
        · rename_i hba
          by_cases hp0 : p = 0
          · exfalso
            subst hp0
            have hmE : m.isEmpty = false := by
              cases m with
              | nil => exact absurd rfl hmne
              | cons a b => rfl
            have hbafalse : boundaryAfter rest = false := by
              cases hbv : boundaryAfter rest
              · rfl
              · exact absurd (by rw [hbv, hmE]; rfl) hba
            cases rest with
            | nil => simp [boundaryAfter] at hbafalse
            | cons c2 r2 =>
              have hc2 : isWordChar c2 = true := by
                cases hiw : isWordChar c2
                · exfalso
                  rw [show boundaryAfter (c2 :: r2) = !isWordChar c2 from rfl,
                    hiw] at hbafalse
                  simp at hbafalse
                · rfl
              rw [Nat.zero_add, hm2, charAt_append_right _ (by omega),
                show t.length - m.length = 0 by omega, charAt_cons_zero] at hw4
              rw [hw4] at hc2
              simp at hc2
          · obtain ⟨p2, rfl⟩ : ∃ p2, p = p2 + 1 := ⟨p - 1, by omega⟩
            have hww' : wwAt t s' p2 (some c) :=
              wwAt_cons_succ.mp ⟨hw1, hw2, hw3, hw4⟩
            have hres := ih s' (some c) p2
              (by simp only [List.length_cons] at hlen; omega) hww' i hi
            rw [show p2 + 1 + i = (p2 + i) + 1 by omega, charAt_cons_succ]
            exact hres
      · rename_i hnone
        by_cases hp0 : p = 0
        · exfalso
          subst hp0
          have hbb : boundaryBefore prev = true := by
            have h := hw3
            rwa [if_pos rfl] at h
          rw [if_pos hbb] at hnone
          have hcm := casingMatch_of_pointwise t (c :: s')
            (by simpa using hw1)
            (fun j hj => by simpa using hw2 j hj)
          rw [hcm] at hnone
          cases hnone
        · obtain ⟨p2, rfl⟩ : ∃ p2, p = p2 + 1 := ⟨p - 1, by omega⟩
          have hww' : wwAt t s' p2 (some c) :=
            wwAt_cons_succ.mp ⟨hw1, hw2, hw3, hw4⟩
          have hres := ih s' (some c) p2
            (by simp only [List.length_cons] at hlen; omega) hww' i hi
          rw [show p2 + 1 + i = (p2 + i) + 1 by omega, charAt_cons_succ]
          exact hres

/-- An exact (already canonically cased) whole-word occurrence of `t` at
position `p` of `s`. -/
def exAt (t s : List Char) (p : Nat) (prev : Option Char) : Prop :=
  (∀ i, i < t.length → charAt s (p + i) = charAt t i) ∧ wwAt t s p prev

theorem exAt_cons_succ {t : List Char} {c : Char} {s : List Char} {p : Nat}
    {prev : Option Char} :
    exAt t (c :: s) (p + 1) prev ↔ exAt t s p (some c) := by
  unfold exAt
  rw [wwAt_cons_succ]
  constructor
  · rintro ⟨he, hw⟩
    refine ⟨?_, hw⟩
    intro i hi
    have h := he i hi
    rwa [show p + 1 + i = (p + i) + 1 by omega, charAt_cons_succ] at h
  · rintro ⟨he, hw⟩
    refine ⟨?_, hw⟩
    intro i hi
    rw [show p + 1 + i = (p + i) + 1 by omega, charAt_cons_succ]
    exact he i hi

theorem exAt_append_shift {t a rest : List Char} (hane : a ≠ []) {p : Nat}
    {prev : Option Char} :
    exAt t (a ++ rest) (p + a.length) prev ↔
      exAt t rest p (some (charAt a (a.length - 1))) := by
  unfold exAt
  rw [wwAt_append_shift hane]
  constructor
  · rintro ⟨he, hw⟩
    refine ⟨?_, hw⟩
    intro i hi
    have h := he i hi
    rwa [show p + a.length + i = a.length + (p + i) by omega,
      charAt_append_right _ (by omega), Nat.add_sub_cancel_left] at h
  · rintro ⟨he, hw⟩
    refine ⟨?_, hw⟩
    intro i hi
    rw [show p + a.length + i = a.length + (p + i) by omega,
      charAt_append_right _ (by omega), Nat.add_sub_cancel_left]
    exact he i hi

/-- Recasing a text preserves whole-word casing occurrences. -/
theorem wwAt_of_recased {t s s1 : List Char} (hr : Recased s s1) {p : Nat}
    {prev : Option Char} (hw : wwAt t s p prev) : wwAt t s1 p prev := by
  obtain ⟨hl, hp⟩ := hr
  obtain ⟨h1, h2, h3, h4⟩ := hw
  refine ⟨by omega, ?_, ?_, ?_⟩
  · intro i hi
    exact caseEqChar_trans (hp (p + i)) (h2 i hi)
  · by_cases hp0 : p = 0
    · subst hp0
      rw [if_pos rfl] at h3
      rw [if_pos rfl]
      exact h3
    · rw [if_neg hp0] at h3
      rw [if_neg hp0, isWordChar_of_caseEq (hp (p - 1))]
      exact h3
  · rw [isWordChar_of_caseEq (hp (p + t.length))]
    exact h4

/-- While the left context is a word character, `\b` cannot hold, so the
scan of `subF` copies the following characters unchanged (as far as the
word run extends). -/
theorem subF_word_run (t2 : List Char) : ∀ (n : Nat) (s : List Char)
    (c0 : Char) (r : Nat), isWordChar c0 = true →
    (∀ j, j < r → isWordChar (charAt s j) = true) →
    ∀ i, i < r → charAt (subF t2 n (some c0) s) i = charAt s i := by
  intro n
  induction n with
  | zero =>
    intro s c0 r hc0 hs i hi
    cases s with
    | nil => rfl
    | cons c s' => simp [subF]
  | succ n ih =>
    intro s c0 r hc0 hs i hi
    cases s with
    | nil => rfl
    | cons c s' =>
      have hbb : boundaryBefore (some c0) = false := by
        simp [boundaryBefore, hc0]
      simp only [subF, hbb, Bool.false_eq_true, if_false]
      cases i with
      | zero => rfl
      | succ j =>
        have hcw : isWordChar c = true := by
          have := hs 0 (by omega)
          simpa [charAt_cons_zero] using this
        have htail : ∀ j2, j2 < r - 1 → isWordChar (charAt s' j2) = true := by
          intro j2 hj2
          have := hs (j2 + 1) (by omega)
          rwa [charAt_cons_succ] at this
        have hres := ih s' c (r - 1) hcw htail j (by omega)
        rw [charAt_cons_succ, charAt_cons_succ]
        exact hres

/-- No consistent placement of a whole-word window of `t` starting inside a
case-insensitive match of `t2`: for every start offset `p` inside `t2`,
either the character of `t2` before `p` is a word character (no `\b` at the
window start), or the overlapped parts mismatch case-insensitively, or the
character of `t2` just after the window is a word character (no `\b` at the
window end). -/
def overlapPlacementFree (t2 t : List Char) : Bool :=
  (List.range t2.length).all (fun p =>
    (decide (0 < p) && isWordChar (charAt t2 (p - 1))) ||
    !((List.range (min t.length (t2.length - p))).all (fun i =>
        caseEqChar (charAt t2 (p + i)) (charAt t i))) ||
    (decide (p + t.length < t2.length) && isWordChar (charAt t2 (p + t.length))))

theorem overlapPlacementFree_spec {t2 t : List Char}
    (h : overlapPlacementFree t2 t = true) (p : Nat) (hp : p < t2.length)
    (hleft : 0 < p → isWordChar (charAt t2 (p - 1)) = false)
    (hmid : ∀ i, i < min t.length (t2.length - p) →
      caseEqChar (charAt t2 (p + i)) (charAt t i) = true)
    (hright : p + t.length < t2.length →
      isWordChar (charAt t2 (p + t.length)) = false) : False := by
  unfold overlapPlacementFree at h
  rw [List.all_eq_true] at h
  have hd := h p (by rw [List.mem_range]; exact hp)
  have hT : ((List.range (min t.length (t2.length - p))).all (fun i =>
      caseEqChar (charAt t2 (p + i)) (charAt t i))) = true := by
    rw [List.all_eq_true]
    intro j hj
    exact hmid j (List.mem_range.mp hj)
  have hA : (decide (0 < p) && isWordChar (charAt t2 (p - 1))) = false := by
    rcases Nat.eq_zero_or_pos p with rfl | hpp
    · simp
    · rw [hleft hpp]
      simp
  have hC : (decide (p + t.length < t2.length) &&
      isWordChar (charAt t2 (p + t.length))) = false := by
    by_cases hlt : p + t.length < t2.length
    · rw [hright hlt]
      simp
    · simp [hlt]
  rw [hA, hT, hC] at hd
  simp at hd

/-- A pass for `t2` leaves an exact whole-word window of `t` untouched,
provided `t` is all word characters and no window of `t` can start inside a
match of `t2`: a match cannot start inside the window (the left context
there is a word character of `t`, so `\b` fails), cannot contain the window
start (by `overlapPlacementFree`), and elsewhere the window lies wholly in
the untouched or recursed part. -/
theorem subF_preserves_window (t2 t : List Char)
    (htw : ∀ i, i < t.length → isWordChar (charAt t i) = true)
    (hop : overlapPlacementFree t2 t = true) :
    ∀ (n : Nat) (s : List Char) (prev : Option Char) (p : Nat),
      s.length ≤ n → exAt t s p prev →
      ∀ i, i < t.length → charAt (subF t2 n prev s) (p + i) = charAt s (p + i) := by
  intro n
  induction n with
  | zero =>
    intro s prev p hlen hex i hi
    have hnil : s = [] := List.length_eq_zero.mp (Nat.le_zero.mp hlen)
    subst hnil
    rfl
  | succ n ih =>
    intro s prev p hlen hex i hi
    cases s with
    | nil =>
      obtain ⟨hexact, hw1, hw2, hw3, hw4⟩ := hex
      simp only [List.length_nil] at hw1
      omega
    | cons c s' =>
      obtain ⟨hexact, hw1, hw2, hw3, hw4⟩ := hex
      simp only [subF]
      split
      · rename_i m rest hsome
        have hbb : boundaryBefore prev = true := by
          by_cases hb : boundaryBefore prev = true
          · exact hb
          · rw [if_neg hb] at hsome; cases hsome
        rw [if_pos hbb] at hsome
        obtain ⟨hm1, hm2, hm3⟩ := casingMatch_pointwise hsome
        split
        · rename_i hba
          have hmne : m ≠ [] := by
            intro hc
            simp only [Bool.and_eq_true] at hba
            rw [hc] at hba
            simp [List.isEmpty] at hba
          have hml : 0 < m.length := List.length_pos.mpr hmne
          rcases Nat.lt_or_ge p m.length with hploc | hploc
          · exfalso
            have hsm : ∀ j, j < m.length → charAt (c :: s') j = charAt m j := by
              intro j hj
              rw [hm2, charAt_append_left _ hj]
            have hleft : 0 < p → isWordChar (charAt t2 (p - 1)) = false := by
              intro hpp
              rw [if_neg (by omega : ¬ p = 0)] at hw3
              have hA := hm3 (p - 1) (by omega)
              rw [isWordChar_of_caseEq hA, ← hsm (p - 1) (by omega)]
              exact hw3
            have hmid : ∀ j, j < min t.length (t2.length - p) →
                caseEqChar (charAt t2 (p + j)) (charAt t j) = true := by
              intro j hj
              rw [lt_min_iff] at hj
              have h1' := hm3 (p + j) (by omega)
              rw [← hsm (p + j) (by omega)] at h1'
              rwa [hexact j (by omega)] at h1'
            have hright : p + t.length < t2.length →
                isWordChar (charAt t2 (p + t.length)) = false := by
              intro hlt
              have hA := hm3 (p + t.length) hlt
              rw [isWordChar_of_caseEq hA, ← hsm (p + t.length) (by omega)]
              exact hw4
            exact overlapPlacementFree_spec hop p (by omega) hleft hmid hright
          · have hrlen : rest.length ≤ n := by
              have hlen2 := congrArg List.length hm2
              simp only [List.length_cons, List.length_append] at hlen2
              simp only [List.length_cons] at hlen
              omega
            have hex0 : exAt t (m ++ rest) ((p - m.length) + m.length) prev := by
              rw [show (p - m.length) + m.length = p by omega, ← hm2]
              exact ⟨hexact, hw1, hw2, hw3, hw4⟩
            have hex' := (exAt_append_shift hmne).mp hex0
            have hgl : m.getLast?.getD c = charAt m (m.length - 1) :=
              getLastD_eq_charAt hmne c
            have hres := ih rest (some (m.getLast?.getD c)) (p - m.length) hrlen
              (by rw [hgl]; exact hex') i hi
            rw [charAt_append_right _ (by omega : t2.length ≤ p + i),
              hm2, charAt_append_right _ (by omega : m.length ≤ p + i),
              show p + i - t2.length = (p - m.length) + i by omega,
              show p + i - m.length = (p - m.length) + i by omega]
            exact hres
        · rename_i hba
          by_cases hp0 : p = 0
          · subst hp0
            cases i with
            | zero => rfl
            | succ j =>
              have hcw : isWordChar c = true := by
                have h := htw 0 (by omega)
                rw [← hexact 0 (by omega)] at h
                simpa [charAt_cons_zero] using h
              have hwords : ∀ j2, j2 < t.length - 1 →
                  isWordChar (charAt s' j2) = true := by
                intro j2 hj2
                have h := htw (j2 + 1) (by omega)
                rw [← hexact (j2 + 1) (by omega)] at h
                rwa [show (0:Nat) + (j2 + 1) = j2 + 1 by omega,
                  charAt_cons_succ] at h
              have hres := subF_word_run t2 n s' c (t.length - 1) hcw hwords j
                (by omega)
              rw [show (0:Nat) + (j + 1) = j + 1 by omega, charAt_cons_succ,
                charAt_cons_succ]
              exact hres
          · obtain ⟨p2, rfl⟩ : ∃ p2, p = p2 + 1 := ⟨p - 1, by omega⟩
            have hex' : exAt t s' p2 (some c) :=
              exAt_cons_succ.mp ⟨hexact, hw1, hw2, hw3, hw4⟩
            have hres := ih s' (some c) p2
              (by simp only [List.length_cons] at hlen; omega) hex' i hi
            rw [show p2 + 1 + i = (p2 + i) + 1 by omega, charAt_cons_succ,
              charAt_cons_succ]
            exact hres
      · rename_i hnone
        by_cases hp0 : p = 0
        · subst hp0
          cases i with
          | zero => rfl
          | succ j =>
            have hcw : isWordChar c = true := by
              have h := htw 0 (by omega)
              rw [← hexact 0 (by omega)] at h
              simpa [charAt_cons_zero] using h
            have hwords : ∀ j2, j2 < t.length - 1 →
                isWordChar (charAt s' j2) = true := by
              intro j2 hj2
              have h := htw (j2 + 1) (by omega)
              rw [← hexact (j2 + 1) (by omega)] at h
              rwa [show (0:Nat) + (j2 + 1) = j2 + 1 by omega,
                charAt_cons_succ] at h
            have hres := subF_word_run t2 n s' c (t.length - 1) hcw hwords j
              (by omega)
            rw [show (0:Nat) + (j + 1) = j + 1 by omega, charAt_cons_succ,
              charAt_cons_succ]
            exact hres
        · obtain ⟨p2, rfl⟩ : ∃ p2, p = p2 + 1 := ⟨p - 1, by omega⟩
          have hex' : exAt t s' p2 (some c) :=
            exAt_cons_succ.mp ⟨hexact, hw1, hw2, hw3, hw4⟩
          have hres := ih s' (some c) p2
            (by simp only [List.length_cons] at hlen; omega) hex' i hi
          rw [show p2 + 1 + i = (p2 + i) + 1 by omega, charAt_cons_succ,
            charAt_cons_succ]
          exact hres

/-- A pass for a term earlier or later in the dict only recases characters,
so it preserves whole-word casing occurrences of every term. -/
theorem wwAt_subWWCI (t2 : List Char) {t s : List Char} {p : Nat}
    (hww : wwAt t s p none) : wwAt t (subWWCI t2 none s) p none :=
  wwAt_of_recased (subF_recased t2 s.length none s (le_refl _)) hww

/-- The pass for `t` itself turns a whole-word casing occurrence of `t` into
an exact whole-word occurrence. -/
theorem exAt_of_own_pass (t : List Char) (ht0 : t ≠ [])
    (hsf : selfOverlapFree t = true) {s : List Char} {p : Nat}
    (hww : wwAt t s p none) : exAt t (subWWCI t none s) p none := by
  refine ⟨?_, wwAt_of_recased (subF_recased t s.length none s (le_refl _)) hww⟩
  intro i hi
  exact subF_canonicalizes t ht0 hsf s.length s none p (le_refl _) hww i hi

/-- A later pass for a non-conflicting term keeps an exact whole-word
occurrence exact. -/
theorem exAt_subWWCI (t2 t : List Char)
    (htw : ∀ i, i < t.length → isWordChar (charAt t i) = true)
    (hop : overlapPlacementFree t2 t = true)
    {s : List Char} {p : Nat} (hex : exAt t s p none) :
    exAt t (subWWCI t2 none s) p none := by
  have hpw := subF_preserves_window t2 t htw hop s.length s none p (le_refl _) hex
  obtain ⟨hexact, hww⟩ := hex
  refine ⟨?_, wwAt_of_recased (subF_recased t2 s.length none s (le_refl _)) hww⟩
  intro i hi
  show charAt (subF t2 s.length none s) (p + i) = charAt t i
  rw [hpw i hi]
  exact hexact i hi

instance wwAtDec (t s : List Char) (p : Nat) (prev : Option Char) :
    Decidable (wwAt t s p prev) := by
  unfold wwAt
  infer_instance

/-- C7 counterexample to the original claim: the input `[yhwh]` contains the
casing `yhwh` of the protected term `YHWH` as a whole word (at position 1,
delimited by the non-word brackets), yet `clean_commentary_text` returns the
empty string — `normalize_text` strips the bracketed span before the
protected-term re-assertions run, so the output does not contain the
canonical casing of the term at that (or any) position. -/
theorem C7_protected_term_counterexample :
    wwAt tYHWH (("[yhwh]").data) 1 none ∧
      clean_commentary_text (("[yhwh]").data) = [] :=
  ⟨by decide, rfl⟩

/-- C7 (corrected): for every protected theological term `t` (YHWH, JHVH,
LORD, Son of Man) and every whole-word case-insensitive occurrence of `t` in
the NORMALIZED text, the output of `clean_commentary_text` carries the
canonical casing of `t` at that position, character for character.  (The
original claim quantifies over occurrences in the raw input; it fails
because normalization can delete the occurrence, see the counterexample.) -/
theorem C7_protected_term_canonical_casing (x t : List Char)
    (hmem : t ∈ theologicalTerms) (p : Nat)
    (hww : wwAt t (normalize_text x) p none) :
    ∀ i, i < t.length → charAt (clean_commentary_text x) (p + i) = charAt t i := by
  have hcc : ∀ y : List Char, clean_commentary_text y =
      subWWCI tSonOfMan none (subWWCI tLORD none (subWWCI tJHVH none
        (subWWCI tYHWH none (normalize_text y)))) := by
    intro y
    simp only [clean_commentary_text, theologicalTerms, List.foldl_cons,
      List.foldl_nil]
  rw [hcc]
  have hmem4 : t = tYHWH ∨ t = tJHVH ∨ t = tLORD ∨ t = tSonOfMan := by
    simpa [theologicalTerms] using hmem
  rcases hmem4 with rfl | rfl | rfl | rfl
  · have e1 := exAt_of_own_pass tYHWH (by decide) (by decide) hww
    have e2 := exAt_subWWCI tJHVH tYHWH (by decide) (by decide) e1
    have e3 := exAt_subWWCI tLORD tYHWH (by decide) (by decide) e2
    have e4 := exAt_subWWCI tSonOfMan tYHWH (by decide) (by decide) e3
    exact e4.1
  · have w1 := wwAt_subWWCI tYHWH hww
    have e2 := exAt_of_own_pass tJHVH (by decide) (by decide) w1
    have e3 := exAt_subWWCI tLORD tJHVH (by decide) (by decide) e2
    have e4 := exAt_subWWCI tSonOfMan tJHVH (by decide) (by decide) e3
    exact e4.1
  · have w1 := wwAt_subWWCI tYHWH hww
    have w2 := wwAt_subWWCI tJHVH w1
    have e3 := exAt_of_own_pass tLORD (by decide) (by decide) w2
    have e4 := exAt_subWWCI tSonOfMan tLORD (by decide) (by decide) e3
    exact e4.1
  · have w1 := wwAt_subWWCI tYHWH hww
    have w2 := wwAt_subWWCI tJHVH w1
    have w3 := wwAt_subWWCI tLORD w2
    have e4 := exAt_of_own_pass tSonOfMan (by decide) (by decide) w3
    exact e4.1

/-- C7 witness: in `he saw yhwh there` the lower-case `yhwh` is a whole-word
occurrence of the protected term at position 7 of the normalized text, and
the cleaned output carries the canonical `Y` there. -/
theorem C7_protected_term_canonical_casing_witness :
    tYHWH ∈ theologicalTerms ∧
      wwAt tYHWH (normalize_text (("he saw yhwh there").data)) 7 none ∧
      0 < tYHWH.length ∧
      charAt (clean_commentary_text (("he saw yhwh there").data)) (7 + 0) =
        charAt tYHWH 0 :=
  have hm : tYHWH ∈ theologicalTerms := by decide
  have hw : wwAt tYHWH (normalize_text (("he saw yhwh there").data)) 7 none := by
    decide
  ⟨hm, hw, by decide,
    C7_protected_term_canonical_casing _ tYHWH hm 7 hw 0 (by decide)⟩

end BiblicalAI
